import Mathlib

/-!
Verification development for the QA-Tools-App JSON-model normalization
pipeline.  The Python sources under `lib/` are shallowly embedded as
executable Lean definitions: JSON values become the inductive `JVal`,
Python dicts become ordered association lists, text operations work on
`List Char` (ASCII model of the Python `str` methods), and exceptions are
modelled with `Except`/`Option`.
-/

namespace QATools

/-- Exact decimal number: the value `num / 10 ^ exp`.  Python floats
produced by this pipeline are parsed from decimal literals, so they are
modelled exactly as decimals. -/
structure Dec where
  num : Int
  exp : Nat
deriving DecidableEq

/-- Worker for `Dec.canon`, structural on the exponent. -/
def Dec.canonGo (n : Int) : Nat → Dec
  | 0 => ⟨n, 0⟩
  | e + 1 =>
    if (10 : Int) ∣ n then Dec.canonGo (n / 10) e else ⟨n, e + 1⟩

/-- Canonical form: divide out factors of 10 while the exponent is
positive. -/
def Dec.canon (d : Dec) : Dec := Dec.canonGo d.num d.exp

/-- Python `float.is_integer()`. -/
def Dec.isInteger (d : Dec) : Bool := (Dec.canon d).exp = 0

/-- Python `int(float)`: truncation toward zero. -/
def Dec.toIntTrunc (d : Dec) : Int :=
  if d.num ≥ 0 then (d.num.toNat / 10 ^ d.exp : Nat)
  else -((-d.num).toNat / 10 ^ d.exp : Nat)

/-- JSON values as processed by the pipeline.  Ints and floats are kept
distinct because the code distinguishes them (`isinstance` checks, int
demotion); floats are exact decimals. -/
inductive JVal where
  | jnull : JVal
  | jbool (b : Bool) : JVal
  | jint (n : Int) : JVal
  | jfloat (d : Dec) : JVal
  | jstr (s : String) : JVal
  | jlist (xs : List JVal) : JVal
  | jdict (kvs : List (String × JVal)) : JVal

namespace JVal

/-- Python truthiness of a value (`bool(v)`). -/
def truthy : JVal → Bool
  | jnull => false
  | jbool b => b
  | jint n => decide (n ≠ 0)
  | jfloat d => decide (d.num ≠ 0)
  | jstr s => decide (s ≠ "")
  | jlist xs => !xs.isEmpty
  | jdict kvs => !kvs.isEmpty

/-- Python `v == ""` (true only for the empty string: no other value
compares equal to a string). -/
def isEmptyStr : JVal → Bool
  | jstr s => decide (s = "")
  | _ => false

/-- Python `v is None`. -/
def isNone : JVal → Bool
  | jnull => true
  | _ => false

/-- Python `v == []` (true only for an empty list). -/
def isEmptyList : JVal → Bool
  | jlist xs => xs.isEmpty
  | _ => false

end JVal

open JVal

/-- The `k in d` for a dict. -/
def dictMem (kvs : List (String × JVal)) (k : String) : Bool :=
  kvs.any (fun kv => kv.1 = k)

/-- The `d.get(k)` for a dict, as an `Option`. -/
def dictGet? (kvs : List (String × JVal)) (k : String) : Option JVal :=
  (kvs.find? (fun kv => kv.1 = k)).map (fun kv => kv.2)

/-- The `d[k] = v`: replace the first binding of `k` (Python dicts have unique
keys, so the first binding is the binding), or append a new one. -/
def dictSet (kvs : List (String × JVal)) (k : String) (v : JVal) :
    List (String × JVal) :=
  match kvs with
  | [] => [(k, v)]
  | (k', v') :: rest =>
    if k' = k then (k, v) :: rest else (k', v') :: dictSet rest k v

/-- The `d.pop(k)`: remove the first binding of `k`. -/
def dictPop (kvs : List (String × JVal)) (k : String) :
    List (String × JVal) :=
  match kvs with
  | [] => []
  | (k', v') :: rest =>
    if k' = k then rest else (k', v') :: dictPop rest k

/-! ## TextFormatter (lib/validators.py)

Python strings are modelled at the character-list level; the ASCII
behaviour of `str.upper`/`str.lower`/`str.title`/`str.strip` is used,
matching the core `Char` operations of Lean. -/

/-- Characters removed by the default Python `str.strip()`. -/
def isPySpace (c : Char) : Bool :=
  c = ' ' || c = '\t' || c = '\n' || c = '\r' || c = '\x0b' || c = '\x0c'

/-- The `s.strip()`. -/
def pyStrip (l : List Char) : List Char :=
  ((l.dropWhile isPySpace).reverse.dropWhile isPySpace).reverse

/-- The `s.split(" ")`: split on every single space (empty tokens kept). -/
def splitSp : List Char → List (List Char)
  | [] => [[]]
  | c :: t =>
    if c = ' ' then [] :: splitSp t
    else
      match splitSp t with
      | [] => [[c]]
      | h :: r => (c :: h) :: r

/-- The `" ".join(ws)`. -/
def joinSp (ws : List (List Char)) : List Char :=
  match ws with
  | [] => []
  | [w] => w
  | w :: ws => w ++ ' ' :: joinSp ws

/-- Body of the per-word loop in `TextFormatter.capitalize_words`:
uppercase the first character when it is lowercase. -/
def capWord (w : List Char) : List Char :=
  match w with
  | [] => []
  | c :: r => if c.isLower then c.toUpper :: r else c :: r

/-- The `TextFormatter.capitalize_words` on the character list of a string. -/
def capitalizeWordsL (l : List Char) : List Char :=
  if l = [] then l
  else joinSp ((splitSp (pyStrip l)).map capWord)

/-- The `TextFormatter.capitalize_words` (string level; the `not text`
emptiness guard is `s = ""`). -/
def capitalizeWords (s : String) : String :=
  if s = "" then s else String.mk (capitalizeWordsL s.data)

/-- The `TextFormatter.capitalize_words` at the value level: the
`isinstance(text, str)` guard returns any non-string unchanged. -/
def capitalizeWordsVal (v : JVal) : JVal :=
  match v with
  | jstr s => jstr (capitalizeWords s)
  | v => v

/-- One step of the Python `str.title()` method (ASCII model): a cased character
following a non-cased character is uppercased, a cased character
following a cased character is lowercased. -/
def pyTitleGo (prevCased : Bool) : List Char → List Char
  | [] => []
  | c :: t =>
    if c.isAlpha then
      (if prevCased then c.toLower else c.toUpper) :: pyTitleGo true t
    else
      c :: pyTitleGo false t

/-- Python `s.title()`. -/
def pyTitle (l : List Char) : List Char := pyTitleGo false l

/-- Python `s.lower()` (ASCII model). -/
def pyLower (l : List Char) : List Char := l.map Char.toLower

/-- The punctuation character class stripped by the first regex in
`TextFormatter.camel_case`. -/
def camelPunct : List Char :=
  ['-', '(', ')', '\"', '#', '/', '@', ';', ':', '<', '>',
   '\x7b', '\x7d', '\x60', '+', '=', '~', '|', '.', '!', '?', ',']

/-- ASCII alphanumeric, as matched by the regex `[^A-Za-z0-9]+`. -/
def isAsciiAlnum (c : Char) : Bool :=
  ('A' ≤ c && c ≤ 'Z') || ('a' ≤ c && c ≤ 'z') || ('0' ≤ c && c ≤ '9')

/-- The `TextFormatter.camel_case` on the character list: split on spaces,
`str.title()` each part, lowercase the whole first part, concatenate,
strip the punctuation class, then strip every non-alphanumeric char. -/
def camelCaseL (l : List Char) : List Char :=
  if l = [] then l
  else
    let parts := (splitSp l).map pyTitle
    let parts :=
      match parts with
      | [] => []
      | p :: rest => pyLower p :: rest
    let r := parts.foldr (· ++ ·) []
    let r := r.filter (fun c => !camelPunct.contains c)
    r.filter isAsciiAlnum

/-- The `TextFormatter.camel_case` (string level). -/
def camelCase (s : String) : String :=
  if s = "" then s else String.mk (camelCaseL s.data)

/-! ## normalize_units (lib/validators.py) -/

/-- Worker for `replaceAllL`: the fuel bounds the number of scanning
steps (each step consumes at least one character, so `l.length` fuel is
always enough). -/
def replaceAllGo (old new : List Char) : Nat → List Char → List Char
  | 0, l => l
  | _ + 1, [] => []
  | fuel + 1, c :: t =>
    if old.isPrefixOf (c :: t) && !old.isEmpty then
      new ++ replaceAllGo old new fuel (t.drop (old.length - 1))
    else
      c :: replaceAllGo old new fuel t

/-- Python `text.replace(old, new)` on character lists (all
non-overlapping occurrences, scanning left to right).  The `old = []`
case returns the text unchanged; the replacement table never contains an
empty key. -/
def replaceAllL (old new : List Char) (l : List Char) : List Char :=
  replaceAllGo old new l.length l

/-- The `Config.UNIT_REPLACEMENTS`, in the insertion order of the Python
dict literal (the iteration order used by `normalize_units`). -/
def unitReplacements : List (String × String) :=
  [("in.", "in"), ("ft.", "ft"), ("FT.", "FT"), ("Ft.", "Ft"), ("yd.", "yd"),
   ("mi.", "mi"), ("cm.", "cm"), ("mm.", "mm"), ("m.", "m"),
   ("max.", "max"), ("Max.", "Max"), ("min.", "min"), ("Min.", "Min"),
   ("avg.", "avg"), ("Avg.", "Avg"), ("nom.", "nom"), ("Nom.", "Nom"),
   ("lbs.", "lbs"), ("lb.", "lb"), ("oz.", "oz"),
   ("cu.", "cu"), ("gal.", "gal"), ("qt.", "qt"), ("pt.", "pt"),
   ("sec.", "sec"), ("Sec.", "Sec"), ("hr.", "hr"), ("hrs.", "hr"),
   ("°F.", "°F"), ("°C.", "°C")]

/-- The `TextFormatter.normalize_units`: sequential `str.replace` over the
replacement table. -/
def normalizeUnits (s : String) : String :=
  if s = "" then s
  else String.mk (unitReplacements.foldl
    (fun acc p => replaceAllL p.1.data p.2.data acc) s.data)

/-! ## URLValidator (lib/validators.py)

`is_valid_url` runs `urllib.parse.urlparse` and requires a non-empty
scheme and netloc.  `urlparse` is modelled here: a scheme is the part
before the first `:` when it is non-empty, starts with a letter and
consists of letters, digits, `+`, `-`, `.`; the netloc is then present
when the remainder starts with `//`, and extends to the next `/`, `?`
or `#`. -/

def isSchemeChar (c : Char) : Bool :=
  c.isAlpha || c.isDigit || c = '+' || c = '-' || c = '.'

def isValidUrl (s : String) : Bool :=
  let l := s.data
  let pre := l.takeWhile (fun c => c ≠ ':')
  if pre.length = l.length then false
  else
    match pre with
    | [] => false
    | c :: _ =>
      if c.isAlpha && pre.all isSchemeChar then
        let rest := l.drop (pre.length + 1)
        match rest with
        | '/' :: '/' :: netrest =>
          !(netrest.takeWhile
              (fun c => c ≠ '/' && c ≠ '?' && c ≠ '#')).isEmpty
        | _ => false
      else false

/-- The `URLValidator.is_valid_url` at the value level: non-strings (and
the falsy empty string) are rejected by the `not url or not
isinstance(url, str)` guard. -/
def isValidUrlVal (v : JVal) : Bool :=
  match v with
  | jstr s => s ≠ "" && isValidUrl s
  | _ => false

/-! ## Python numeric conversions -/

/-- Digits to a natural number. -/
def digitsToNat (ds : List Char) : Nat :=
  ds.foldl (fun acc c => acc * 10 + (c.toNat - 48)) 0

/-- Python `int(s)` for strings: optional surrounding whitespace,
optional sign, one or more digits (numeric-literal underscores and
non-decimal forms are not modelled and yield failure, as does any other
malformed input). -/
def pyInt? (s : String) : Option Int :=
  let l := pyStrip s.data
  let (sign, l) :=
    match l with
    | '+' :: t => ((1 : Int), t)
    | '-' :: t => ((-1 : Int), t)
    | t => ((1 : Int), t)
  if l ≠ [] && l.all Char.isDigit then
    some (sign * (digitsToNat l : Int))
  else none

/-- Python `float(s)` for strings, with the result as an exact decimal:
optional surrounding whitespace, optional sign, `digits[.digits]`,
`.digits` or `digits.`, optional exponent.  `inf`/`nan` and underscores
are not modelled and yield failure. -/
def pyFloat? (s : String) : Option Dec :=
  let l := pyStrip s.data
  let (sign, l) :=
    match l with
    | '+' :: t => ((1 : Int), t)
    | '-' :: t => ((-1 : Int), t)
    | t => ((1 : Int), t)
  let intDigits := l.takeWhile Char.isDigit
  let rest := l.drop intDigits.length
  let (fracDigits, rest) :=
    match rest with
    | '.' :: t => (t.takeWhile Char.isDigit, t.drop (t.takeWhile Char.isDigit).length)
    | t => ([], t)
  -- mantissa must contain at least one digit
  if intDigits.isEmpty && fracDigits.isEmpty then none
  else
    let mantNum : Int :=
      sign * ((digitsToNat intDigits * 10 ^ fracDigits.length +
               digitsToNat fracDigits : Nat) : Int)
    let mant : Dec := ⟨mantNum, fracDigits.length⟩
    match rest with
    | [] => some mant.canon
    | e :: t =>
      if e = 'e' ∨ e = 'E' then
        let (esign, t) :=
          match t with
          | '+' :: t' => ((1 : Int), t')
          | '-' :: t' => ((-1 : Int), t')
          | t' => ((1 : Int), t')
        if t ≠ [] && t.all Char.isDigit then
          let ex := digitsToNat t
          if esign = 1 then
            some (Dec.canon ⟨mant.num * 10 ^ ex, mant.exp⟩)
          else
            some (Dec.canon ⟨mant.num, mant.exp + ex⟩)
        else none
      else none

/-! ## Python `str`/`repr` rendering (used in issue messages and in
`ListCleaner`).  Floats are rendered from their exact rational value;
the decimal fragment used by the pipeline is rendered exactly as
the Python `repr` does. -/

/-- Strip trailing zero characters of a fraction (keeping at least one
digit). -/
def stripFracZeros (l : List Char) : List Char :=
  match (l.reverse.dropWhile (fun c => c = '0')).reverse with
  | [] => ['0']
  | l => l

/-- Left-pad a digit string to length `k`. -/
def padLeftZeros (k : Nat) (l : List Char) : List Char :=
  List.replicate (k - l.length) '0' ++ l

/-- Python `repr`/`str` of a float holding the exact decimal `d`
(rendered from the canonical form; scientific notation for very
small/large magnitudes is not modelled). -/
def floatRepr (d : Dec) : String :=
  let d := d.canon
  let sign := if d.num < 0 then "-" else ""
  let a := d.num.natAbs
  if d.exp = 0 then sign ++ toString a ++ ".0"
  else
    let ip := a / 10 ^ d.exp
    let fp := a % 10 ^ d.exp
    sign ++ toString ip ++ "." ++
      String.mk (stripFracZeros (padLeftZeros d.exp (toString fp).data))

mutual

/-- Python `repr(v)`. -/
def pyRepr : JVal → String
  | jnull => "None"
  | jbool b => if b then "True" else "False"
  | jint n => toString n
  | jfloat q => floatRepr q
  | jstr s => "\x27" ++ s ++ "\x27"
  | jlist xs => "[" ++ pyReprList xs ++ "]"
  | jdict kvs => "\x7b" ++ pyReprEntries kvs ++ "\x7d"

/-- The `repr` of list elements, comma separated. -/
def pyReprList : List JVal → String
  | [] => ""
  | [x] => pyRepr x
  | x :: xs => pyRepr x ++ ", " ++ pyReprList xs

/-- The `repr` of dict entries, comma separated. -/
def pyReprEntries : List (String × JVal) → String
  | [] => ""
  | [kv] => "\x27" ++ kv.1 ++ "\x27: " ++ pyRepr kv.2
  | kv :: kvs => "\x27" ++ kv.1 ++ "\x27: " ++ pyRepr kv.2 ++ ", " ++ pyReprEntries kvs

end

/-- Python `str(v)` (identical to `repr` except on strings). -/
def pyStr : JVal → String
  | jstr s => s
  | v => pyRepr v

mutual

/-- Python `==` between pipeline values.  Equality is structural except
that floats compare by value; the cross-type numeric equalities Python
would also accept (`1 == 1.0`, `True == 1`) never arise at the
comparison sites in this code (they compare a value against a string, a
list of kept elements against the original list, or a fresh string
against the old value). -/
def jvalBeq : JVal → JVal → Bool
  | jnull, jnull => true
  | jbool a, jbool b => a = b
  | jint a, jint b => a = b
  | jfloat a, jfloat b => a.canon = b.canon
  | jstr a, jstr b => a = b
  | jlist xs, jlist ys => jvalBeqList xs ys
  | jdict xs, jdict ys => jvalBeqEntries xs ys
  | _, _ => false

def jvalBeqList : List JVal → List JVal → Bool
  | [], [] => true
  | x :: xs, y :: ys => jvalBeq x y && jvalBeqList xs ys
  | _, _ => false

def jvalBeqEntries :
    List (String × JVal) → List (String × JVal) → Bool
  | [], [] => true
  | kv :: xs, kv' :: ys =>
    kv.1 = kv'.1 && jvalBeq kv.2 kv'.2 && jvalBeqEntries xs ys
  | _, _ => false

end

/-! ## ListCleaner (lib/validators.py) -/

/-- The `ListCleaner.clean_empty_elements`: keep elements that are truthy
and whose `str()` is not whitespace-only; an emptied list becomes
`None`; non-lists pass through. -/
def cleanEmptyElements (v : JVal) : JVal :=
  match v with
  | jlist xs =>
    let cleaned := xs.filter
      (fun it => truthy it && !(pyStrip (pyStr it).data).isEmpty)
    if cleaned.isEmpty then jnull else jlist cleaned
  | v => v

/-! ## JSONModelFormatter._remove_null_fields (lib/json_formatter.py) -/

/-- The `Config.MEDIA_EMPTY_FIELDS`. -/
def mediaEmptyFields : List String := ["desc", "longDesc", "attachmentName"]

mutual

/-- The inner `clean_dict` of `_remove_null_fields` (its `parent_key`
parameter is never read and is omitted). -/
def cleanVal : JVal → JVal
  | jdict kvs => jdict (cleanEntries kvs)
  | jlist xs =>
    match cleanList xs with
    | [] => jnull
    | ys => jlist ys
  | v => v

/-- Dict branch of `clean_dict`: keep exempt empty strings verbatim;
keep (and recursively clean) values that are not `None`, `""` or `[]`;
drop the rest.  The tests are on the original, pre-cleaning value. -/
def cleanEntries : List (String × JVal) → List (String × JVal)
  | [] => []
  | (k, v) :: rest =>
    if mediaEmptyFields.contains k && isEmptyStr v then
      (k, v) :: cleanEntries rest
    else if !isNone v && !isEmptyList v &&
        !(isEmptyStr v && !mediaEmptyFields.contains k) then
      (k, cleanVal v) :: cleanEntries rest
    else
      cleanEntries rest

/-- List branch of `clean_dict`: drop elements that are `None`, `""` or
`[]` (tested before cleaning), clean the survivors. -/
def cleanList : List JVal → List JVal
  | [] => []
  | v :: rest =>
    if !isNone v && !isEmptyStr v && !isEmptyList v then
      cleanVal v :: cleanList rest
    else
      cleanList rest

end

/-- The `JSONModelFormatter._remove_null_fields`. -/
def removeNullFields (model : JVal) : JVal := cleanVal model

/-! ## GeneralSectionValidator (lib/validators.py) -/

/-- The `Config.REQUIRED_GENERAL_FIELDS`. -/
def requiredGeneralFields : List String :=
  ["manufacturer", "model", "year", "msrp",
   "category", "subcategory", "description", "countries"]

/-- The `Config.VALID_COUNTRIES` as pipeline values. -/
def validCountriesJ : List JVal := [jstr "US", jstr "CA"]

/-- The `formatted_names_cache.get(name, name)`. -/
def cacheGet (cache : List (String × String)) (s : String) : String :=
  ((cache.find? (fun kv => kv.1 = s)).map (fun kv => kv.2)).getD s

/-- The required-fields loop of `validate_and_format`: missing fields are
reported and injected as `None` (`0` for `msrp`). -/
def ensureRequiredFields (kvs : List (String × JVal))
    (fileName modelName : String) :
    List (String × JVal) × List String :=
  requiredGeneralFields.foldl
    (fun acc field =>
      if dictMem acc.1 field then acc
      else
        let msg := "Missing required field \x27" ++ field ++
          "\x27 in general section - " ++ fileName ++ " - " ++ modelName
        (dictSet acc.1 field (if field = "msrp" then jint 0 else jnull),
         acc.2 ++ [msg]))
    (kvs, [])

/-- The `GeneralSectionValidator._format_text_fields`. -/
def formatTextFields (kvs : List (String × JVal))
    (fileName modelName : String) (cache : List (String × String)) :
    List (String × JVal) × List String :=
  -- manufacturer / category / subcategory: simple capitalization
  let step := fun (acc : List (String × JVal) × List String) (field : String) =>
    let old := (dictGet? acc.1 field).getD jnull
    if truthy old then
      let newStr := capitalizeWords (pyStr old)
      let kvs' := dictSet acc.1 field (jstr newStr)
      if jvalBeq old (jstr newStr) then (kvs', acc.2)
      else
        let oldS := pyStr old
        let msg := "Formatted " ++ field ++ ": \x27" ++ oldS ++ "\x27 → \x27" ++
          newStr ++ "\x27 in " ++ fileName ++ " - " ++ modelName
        (kvs', acc.2 ++ [msg])
    else acc
  let acc := ["manufacturer", "category", "subcategory"].foldl step (kvs, [])
  -- model: resolved through the batch name cache
  let old := (dictGet? acc.1 "model").getD jnull
  if truthy old then
    let newStr := cacheGet cache (pyStr old)
    let kvs' := dictSet acc.1 "model" (jstr newStr)
    if jvalBeq old (jstr newStr) then (kvs', acc.2)
    else
      let oldS := pyStr old
      let msg := "Formatted model: \x27" ++ oldS ++ "\x27 → \x27" ++ newStr ++
        "\x27 in " ++ fileName ++ " - " ++ modelName
      (kvs', acc.2 ++ [msg])
  else acc

/-- Python `int(v)` over pipeline values, as used by `_validate_year`
(`None` on `ValueError`/`TypeError`). -/
def pyIntOfVal : JVal → Option Int
  | jstr s => pyInt? s
  | jint n => some n
  | jbool b => some (if b then 1 else 0)
  | jfloat d => some d.toIntTrunc
  | _ => none

/-- The `GeneralSectionValidator._validate_year`. -/
def validateYear (kvs : List (String × JVal))
    (fileName modelName : String) :
    List (String × JVal) × List String :=
  let y := (dictGet? kvs "year").getD jnull
  if truthy y then
    match y with
    | jint _ => (kvs, [])
    | jbool _ => (kvs, [])  -- isinstance(True, int) holds in Python
    | y =>
      match pyIntOfVal y with
      | some n =>
        let oldS := pyStr y
        let newS := toString n
        let msg := "Converted year to integer: " ++ oldS ++ " → " ++ newS ++
          " in " ++ fileName ++ " - " ++ modelName
        (dictSet kvs "year" (jint n), [msg])
      | none =>
        let oldS := pyStr y
        let msg := "Invalid year value \x27" ++ oldS ++ "\x27 in " ++
          fileName ++ " - " ++ modelName ++ ", setting to None"
        (dictSet kvs "year" jnull, [msg])
  else (kvs, [])

/-- The `GeneralSectionValidator._validate_msrp`. -/
def validateMsrp (kvs : List (String × JVal))
    (fileName modelName : String) :
    List (String × JVal) × List String :=
  if dictMem kvs "msrp" then
    match (dictGet? kvs "msrp").getD jnull with
    | jstr s =>
      -- msrp_val.replace(",", "").strip()
      let cleaned := String.mk (pyStrip (s.data.filter (fun c => c ≠ ',')))
      if cleaned ≠ "" then
        match pyFloat? cleaned with
        | some d =>
          let newV := if d.isInteger then jint d.toIntTrunc else jfloat d
          let newS := pyStr newV
          let msg := "Formatted MSRP: " ++ newS ++ " in " ++ fileName ++
            " - " ++ modelName
          (dictSet kvs "msrp" newV, [msg])
        | none =>
          let oldS := s
          let msg := "Invalid MSRP value \x27" ++ oldS ++ "\x27 in " ++
            fileName ++ " - " ++ modelName ++ ", setting to 0"
          (dictSet kvs "msrp" (jint 0), [msg])
      else (dictSet kvs "msrp" (jint 0), [])
    | jnull => (dictSet kvs "msrp" (jint 0), [])
    | _ => (kvs, [])
  else (kvs, [])

/-- The `GeneralSectionValidator._validate_countries`. -/
def validateCountries (kvs : List (String × JVal))
    (fileName modelName : String) :
    List (String × JVal) × List String :=
  let defaultMsgTail := "[\x27US\x27, \x27CA\x27] in " ++ fileName ++ " - " ++ modelName
  if dictMem kvs "countries" then
    match (dictGet? kvs "countries").getD jnull with
    | jlist (x :: xs) =>
      let original := x :: xs
      let filtered := original.filter
        (fun c => validCountriesJ.any (fun v => jvalBeq c v))
      if filtered.isEmpty then
        (dictSet kvs "countries" (jlist validCountriesJ),
         ["No valid countries found, set to default " ++ defaultMsgTail])
      else if jvalBeqList filtered original then (kvs, [])
      else
        let removed := original.filter
          (fun c => !filtered.any (fun v => jvalBeq c v))
        let removedS := pyStr (jlist removed)
        (dictSet kvs "countries" (jlist filtered),
         ["Removed invalid countries " ++ removedS ++ " in " ++ fileName ++
          " - " ++ modelName])
    | _ =>
      (dictSet kvs "countries" (jlist validCountriesJ),
       ["Empty or invalid countries, set to default " ++ defaultMsgTail])
  else
    (dictSet kvs "countries" (jlist validCountriesJ),
     ["Missing countries field, set to default " ++ defaultMsgTail])

/-! ## Python container-protocol operations

`_format_single_model` probes arbitrary record values with `in`,
`model[key]` and `model[key] = v`; on non-mapping records these can
raise (`TypeError`), which the `try/except` of the pipeline turns into a
failed record.  The raising behaviour is modelled with `Except String`
(the message text abstracts the Python exception text). -/

/-- Python substring test `needle in hay`. -/
def listContainsSub (needle : List Char) : List Char → Bool
  | [] => needle.isEmpty
  | c :: t => needle.isPrefixOf (c :: t) || listContainsSub needle t

/-- Python `key in v`. -/
def pyContains (v : JVal) (key : String) : Except String Bool :=
  match v with
  | jdict kvs => .ok (dictMem kvs key)
  | jstr s => .ok (listContainsSub key.data s.data)
  | jlist xs => .ok (xs.any (fun x => jvalBeq x (jstr key)))
  | _ => .error "TypeError: argument is not iterable"

/-- Python `v[key]` for a string key. -/
def pyGetItem (v : JVal) (key : String) : Except String JVal :=
  match v with
  | jdict kvs =>
    match dictGet? kvs key with
    | some x => .ok x
    | none => .error ("KeyError: " ++ key)
  | _ => .error "TypeError: value is not subscriptable with a string"

/-- Python `v[key] = x` for a string key. -/
def pySetItem (v : JVal) (key : String) (x : JVal) : Except String JVal :=
  match v with
  | jdict kvs => .ok (jdict (dictSet kvs key x))
  | _ => .error "TypeError: value does not support string item assignment"

/-- Python `len(v)` (`TypeError` on numbers/booleans/None). -/
def pyLen (v : JVal) : Except String Nat :=
  match v with
  | jstr s => .ok s.length
  | jlist xs => .ok xs.length
  | jdict kvs => .ok kvs.length
  | _ => .error "TypeError: object has no len"

/-! ## MediaValidator (lib/validators.py) -/

/-- Issue text for a dropped non-string image entry. -/
def imgDropMsg (idx : Nat) (fileName modelName : String) : String :=
  "Invalid image URL removed at index " ++ toString idx ++ " in " ++
    fileName ++ " - " ++ modelName

/-- Issue text for a dropped string image entry. -/
def imgDropStrMsg (idx : Nat) (fileName modelName : String) : String :=
  "Invalid image URL string removed at index " ++ toString idx ++ " in " ++
    fileName ++ " - " ++ modelName

/-- The `enumerate(model["images"])` loop of
`MediaValidator.validate_images`: returns the kept entries and the
issues, with `idx` the enumeration index of the first element. -/
def imagesGo (fileName modelName : String) (idx : Nat) :
    List JVal → List JVal × List String
  | [] => ([], [])
  | img :: rest =>
    let acc := imagesGo fileName modelName (idx + 1) rest
    match img with
    | jdict kvs =>
      if dictMem kvs "src" then
        if isValidUrlVal ((dictGet? kvs "src").getD jnull) then
          let kvs := if dictMem kvs "desc" then kvs
                     else dictSet kvs "desc" (jstr "")
          let kvs := if dictMem kvs "longDesc" then kvs
                     else dictSet kvs "longDesc" (jstr "")
          (jdict kvs :: acc.1, acc.2)
        else (acc.1, imgDropMsg idx fileName modelName :: acc.2)
      else (acc.1, acc.2)  -- dict without "src": dropped silently
    | jstr s =>
      if isValidUrlVal (jstr s) then
        (jdict [("src", jstr s), ("desc", jstr ""), ("longDesc", jstr "")]
           :: acc.1, acc.2)
      else (acc.1, imgDropStrMsg idx fileName modelName :: acc.2)
    | _ => (acc.1, acc.2)  -- non-dict, non-string: dropped silently

/-- The `MediaValidator.validate_images` (the `model` parameter is the whole
record; mirrors the guards, including the raising item accesses). -/
def validateImages (model : JVal) (fileName modelName : String) :
    Except String (JVal × List String) := do
  let c ← pyContains model "images"
  if !c then return (model, [])
  let v ← pyGetItem model "images"
  if !truthy v then return (model, [])
  match v with
  | jlist xs =>
    let res := imagesGo fileName modelName 0 xs
    let newV := if res.1.isEmpty then jnull else jlist res.1
    let model' ← pySetItem model "images" newV
    return (model', res.2)
  | _ => return (model, [])

/-- Issue text for a dropped non-string video entry. -/
def vidDropMsg (idx : Nat) (fileName modelName : String) : String :=
  "Invalid video URL removed at index " ++ toString idx ++ " in " ++
    fileName ++ " - " ++ modelName

/-- Issue text for a dropped string video entry. -/
def vidDropStrMsg (idx : Nat) (fileName modelName : String) : String :=
  "Invalid video URL string removed at index " ++ toString idx ++ " in " ++
    fileName ++ " - " ++ modelName

/-- The per-entry loop of `MediaValidator.validate_videos`. -/
def videosGo (fileName modelName : String) (idx : Nat) :
    List JVal → List JVal × List String
  | [] => ([], [])
  | vid :: rest =>
    let acc := videosGo fileName modelName (idx + 1) rest
    match vid with
    | jdict kvs =>
      let urlKey := if dictMem kvs "src" then some "src"
                    else if dictMem kvs "videoLocation" then some "videoLocation"
                    else none
      match urlKey with
      | some k =>
        if isValidUrlVal ((dictGet? kvs k).getD jnull) then
          let kvs :=
            if k = "videoLocation" then
              let x := (dictGet? kvs "videoLocation").getD jnull
              dictSet (dictPop kvs "videoLocation") "src" x
            else kvs
          let kvs :=
            if dictMem kvs "videoDescription" then
              let x := (dictGet? kvs "videoDescription").getD jnull
              dictSet (dictPop kvs "videoDescription") "desc" x
            else kvs
          let kvs :=
            if dictMem kvs "videoName" then
              let x := (dictGet? kvs "videoName").getD jnull
              dictSet (dictPop kvs "videoName") "longDesc" x
            else kvs
          let kvs := if dictMem kvs "desc" then kvs
                     else dictSet kvs "desc" (jstr "")
          let kvs := if dictMem kvs "longDesc" then kvs
                     else dictSet kvs "longDesc" (jstr "")
          (jdict kvs :: acc.1, acc.2)
        else (acc.1, vidDropMsg idx fileName modelName :: acc.2)
      | none => (acc.1, vidDropMsg idx fileName modelName :: acc.2)
    | jstr s =>
      if isValidUrlVal (jstr s) then
        (jdict [("src", jstr s), ("desc", jstr ""), ("longDesc", jstr "")]
           :: acc.1, acc.2)
      else (acc.1, vidDropStrMsg idx fileName modelName :: acc.2)
    | _ => (acc.1, acc.2)

/-- The `MediaValidator.validate_videos`. -/
def validateVideos (model : JVal) (fileName modelName : String) :
    Except String (JVal × List String) := do
  let c ← pyContains model "videos"
  if !c then return (model, [])
  let v ← pyGetItem model "videos"
  if !truthy v then return (model, [])
  match v with
  | jlist xs =>
    let res := videosGo fileName modelName 0 xs
    let newV := if res.1.isEmpty then jnull else jlist res.1
    let model' ← pySetItem model "videos" newV
    return (model', res.2)
  | _ => return (model, [])

/-- Issue text for a dropped non-string attachment entry. -/
def attDropMsg (idx : Nat) (fileName modelName : String) : String :=
  "Invalid or empty attachment URL removed at index " ++ toString idx ++
    " in " ++ fileName ++ " - " ++ modelName

/-- Issue text for a dropped string attachment entry. -/
def attDropStrMsg (idx : Nat) (fileName modelName : String) : String :=
  "Invalid or empty attachment URL string removed at index " ++
    toString idx ++ " in " ++ fileName ++ " - " ++ modelName

/-- The per-entry loop of `MediaValidator.validate_attachments`;
`counter` is the running `pdf_counter` over kept attachments. -/
def attachmentsGo (fileName modelName : String) (idx counter : Nat) :
    List JVal → List JVal × List String
  | [] => ([], [])
  | att :: rest =>
    match att with
    | jdict kvs =>
      let urlKey := if dictMem kvs "attachmentLocation" then some "attachmentLocation"
                    else if dictMem kvs "src" then some "src"
                    else none
      match urlKey with
      | some k =>
        let v := (dictGet? kvs k).getD jnull
        if truthy v && isValidUrlVal v then
          let kvs :=
            if k = "src" then
              let x := (dictGet? kvs "src").getD jnull
              dictSet (dictPop kvs "src") "attachmentLocation" x
            else kvs
          let kvs :=
            if !dictMem kvs "attachmentDescription" ||
               !truthy ((dictGet? kvs "attachmentDescription").getD jnull) then
              dictSet kvs "attachmentDescription"
                (jstr ("pdf " ++ toString counter))
            else kvs
          let kvs := if dictMem kvs "attachmentName" then kvs
                     else dictSet kvs "attachmentName" (jstr "")
          let acc := attachmentsGo fileName modelName (idx + 1) (counter + 1) rest
          (jdict kvs :: acc.1, acc.2)
        else
          let acc := attachmentsGo fileName modelName (idx + 1) counter rest
          (acc.1, attDropMsg idx fileName modelName :: acc.2)
      | none =>
        let acc := attachmentsGo fileName modelName (idx + 1) counter rest
        (acc.1, attDropMsg idx fileName modelName :: acc.2)
    | jstr s =>
      if truthy (jstr s) && isValidUrlVal (jstr s) then
        let acc := attachmentsGo fileName modelName (idx + 1) (counter + 1) rest
        (jdict [("attachmentLocation", jstr s),
                ("attachmentDescription", jstr ("pdf " ++ toString counter)),
                ("attachmentName", jstr "")] :: acc.1, acc.2)
      else
        let acc := attachmentsGo fileName modelName (idx + 1) counter rest
        (acc.1, attDropStrMsg idx fileName modelName :: acc.2)
    | _ =>
      let acc := attachmentsGo fileName modelName (idx + 1) counter rest
      (acc.1, acc.2)

/-- The `MediaValidator.validate_attachments`. -/
def validateAttachments (model : JVal) (fileName modelName : String) :
    Except String (JVal × List String) := do
  let c ← pyContains model "attachments"
  if !c then return (model, [])
  let v ← pyGetItem model "attachments"
  if !truthy v then return (model, [])
  match v with
  | jlist xs =>
    let res := attachmentsGo fileName modelName 0 1 xs
    let newV := if res.1.isEmpty then jnull else jlist res.1
    let model' ← pySetItem model "attachments" newV
    return (model', res.2)
  | _ => return (model, [])

/-- The `GeneralSectionValidator.validate_and_format`. -/
def validateAndFormat (general : JVal) (fileName modelName : String)
    (cache : List (String × String)) : JVal × List String :=
  match general with
  | jdict (kv :: kvs) =>
    let s0 := ensureRequiredFields (kv :: kvs) fileName modelName
    let s1 := formatTextFields s0.1 fileName modelName cache
    let s2 := validateYear s1.1 fileName modelName
    let s3 := validateMsrp s2.1 fileName modelName
    let s4 := validateCountries s3.1 fileName modelName
    (jdict s4.1, s0.2 ++ s1.2 ++ s2.2 ++ s3.2 ++ s4.2)
  | g =>
    -- `not general or not isinstance(general, dict)`: empty dicts and
    -- non-dicts are reported and returned unchanged
    (g, ["Missing or invalid \x27general\x27 section in " ++ fileName ++
         " - " ++ modelName])

/-! ## JSONModelFormatter (lib/json_formatter.py) -/

/-- The `Config.SPEC_SECTIONS`. -/
def specSections : List String :=
  ["engine", "operational", "measurements", "hydraulics",
   "weights", "dimensions", "electrical", "drivetrain",
   "body", "other"]

/-- The `ModelReport` (the counters and accumulators of the report object).
Issue keys are the raw model-name values, as in `add_issue`. -/
structure ModelReport where
  total : Nat
  processed : Nat
  failed : Nat
  issuesByModel : List (JVal × List String)
  errors : List String

/-- The empty report. -/
def ModelReport.init : ModelReport := ⟨0, 0, 0, [], []⟩

/-- Append an issue in the per-model map (Python dict keyed by the model
name value: lookup is by equality). -/
def addToIssueMap (m : List (JVal × List String)) (name : JVal)
    (issue : String) : List (JVal × List String) :=
  match m with
  | [] => [(name, [issue])]
  | (k, iss) :: rest =>
    if jvalBeq k name then (k, iss ++ [issue]) :: rest
    else (k, iss) :: addToIssueMap rest name issue

/-- The `ModelReport.add_issue`, acting on the `issues_by_model` map (the
only report field it touches); a list- or dict-valued model name is
unhashable and raises. -/
def addIssueLog (log : List (JVal × List String)) (name : JVal)
    (issue : String) : Except String (List (JVal × List String)) :=
  match name with
  | jlist _ => .error "TypeError: unhashable type"
  | jdict _ => .error "TypeError: unhashable type"
  | name => .ok (addToIssueMap log name issue)

/-- The `add_issue` over a list of issues (stops at the first raise, keeping
the additions already made). -/
def addIssuesLog (log : List (JVal × List String)) (name : JVal) :
    List String →
    Except (String × List (JVal × List String)) (List (JVal × List String))
  | [] => .ok log
  | issue :: rest =>
    match addIssueLog log name issue with
    | .ok log' => addIssuesLog log' name rest
    | .error e => .error (e, log)

/-- The `JSONModelFormatter._get_model_name`: the `general.model` value of a
mapping record, `"Unknown Model"` otherwise (every exception inside is
swallowed). -/
def getModelName (model : JVal) : JVal :=
  match model with
  | jdict kvs =>
    match dictGet? kvs "general" with
    | some (jdict g) =>
      match dictGet? g "model" with
      | some v => v
      | none => jstr "Unknown Model"
    | _ => jstr "Unknown Model"
  | _ => jstr "Unknown Model"

/-- Tag errors with the issue log at the raise point (Python mutates
`self.report` in place, so issues recorded before an exception are
kept). -/
def liftE (log : List (JVal × List String)) :
    Except String α → Except (String × List (JVal × List String)) α
  | .ok a => .ok a
  | .error e => .error (e, log)

/-- The `JSONModelFormatter._clean_lists` (single field). -/
def cleanListField (model : JVal) (field fileName modelName : String) :
    Except String (JVal × List String) := do
  let c ← pyContains model field
  if !c then return (model, [])
  let v ← pyGetItem model field
  if !truthy v then return (model, [])
  let originalCount : Nat :=
    match v with
    | jlist xs => xs.length
    | _ => 0
  let cleaned := cleanEmptyElements v
  let model ← pySetItem model field cleaned
  let newCount : Nat ←
    if truthy cleaned then pyLen cleaned else pure 0
  if originalCount ≠ newCount then
    let diff : Int := (originalCount : Int) - (newCount : Int)
    let diffS := toString diff
    let singular := String.mk (field.data.dropLast)
    return (model,
      ["Removed " ++ diffS ++ " empty " ++ singular ++ "(s) in " ++
       fileName ++ " - " ++ modelName])
  else return (model, [])

/-- The `JSONModelFormatter._clean_lists` (`features` then `options`). -/
def cleanLists (model : JVal) (fileName modelName : String) :
    Except String (JVal × List String) := do
  let a ← cleanListField model "features" fileName modelName
  let b ← cleanListField a.1 "options" fileName modelName
  return (b.1, a.2 ++ b.2)

/-- The `JSONModelFormatter._format_specifications` for one section:
`formatted_section` grows by dict assignment in entry order, so a later
entry whose (camel-cased) key collides overwrites the earlier one. -/
def formatSpecSection (model : JVal) (sect fileName modelName : String) :
    Except String (JVal × List String) := do
  let c ← pyContains model sect
  if !c then return (model, [])
  let v ← pyGetItem model sect
  if !truthy v then return (model, [])
  match v with
  | jdict entries =>
    -- fold the entries in order through dict assignment
    let step := fun (acc : List (String × JVal) × List String) (kv : String × JVal) =>
      let (k, value) := kv
      match value with
      | jdict vd =>
        if dictMem vd "label" && dictMem vd "desc" then
          let oldDesc := (dictGet? vd "desc").getD jnull
          let (vd', iss) :=
            if truthy oldDesc then
              let newDesc := normalizeUnits (pyStr oldDesc)
              let vd2 := dictSet vd "desc" (jstr newDesc)
              if jvalBeq oldDesc (jstr newDesc) then (vd2, ([] : List String))
              else (vd2, ["Normalized units in " ++ sect ++ "." ++ k ++
                          " in " ++ fileName ++ " - " ++ modelName])
            else (vd, [])
          (dictSet acc.1 (camelCase k) (jdict vd'), acc.2 ++ iss)
        else (dictSet acc.1 k value, acc.2)
      | _ => (dictSet acc.1 k value, acc.2)
    let res := entries.foldl step ([], [])
    let newV := if res.1.isEmpty then jnull else jdict res.1
    let model' ← pySetItem model sect newV
    return (model', res.2)
  | _ => return (model, [])

/-- The `JSONModelFormatter._format_specifications` over all ten sections. -/
def formatSpecifications (model : JVal) (fileName modelName : String) :
    Except String (JVal × List String) :=
  specSections.foldlM
    (fun acc sect => do
      let r ← formatSpecSection acc.1 sect fileName modelName
      pure (r.1, acc.2 ++ r.2))
    (model, [])

/-- The `JSONModelFormatter._format_single_model`: the whole per-record
pipeline inside the `try`, with the `except` path counting the record as
failed (the partially mutated record is returned in Python but discarded
by the caller; the original record stands in for it here).  The
exception text itself is abstracted. -/
def formatSingleModel (cache : List (String × String)) (fileName : String)
    (r : ModelReport) (model : JVal) : JVal × Bool × ModelReport :=
  let modelName := getModelName model
  let body : Except (String × List (JVal × List String))
      (JVal × List (JVal × List String)) := do
    let log := r.issuesByModel
    -- general section
    let c ← liftE log (pyContains model "general")
    let (model1, log1, modelName1) ←
      if c then do
        let g ← liftE log (pyGetItem model "general")
        let res := validateAndFormat g fileName (pyStr modelName) cache
        let model1 ← liftE log (pySetItem model "general" res.1)
        let log1 ← addIssuesLog log modelName res.2
        pure (model1, log1, getModelName model1)
      else do
        let log1 ← liftE log (addIssueLog log modelName
          ("Missing \x27general\x27 section in " ++ fileName))
        pure (model, log1, modelName)
    -- media
    let i1 ← liftE log1 (validateImages model1 fileName (pyStr modelName1))
    let i2 ← liftE log1 (validateVideos i1.1 fileName (pyStr modelName1))
    let i3 ← liftE log1 (validateAttachments i2.1 fileName (pyStr modelName1))
    let log2 ← addIssuesLog log1 modelName1 (i1.2 ++ i2.2 ++ i3.2)
    -- features / options
    let lc ← liftE log2 (cleanLists i3.1 fileName (pyStr modelName1))
    let log3 ← addIssuesLog log2 modelName1 lc.2
    -- spec sections
    let sp ← liftE log3 (formatSpecifications lc.1 fileName (pyStr modelName1))
    let log4 ← addIssuesLog log3 modelName1 sp.2
    -- null stripping
    pure (removeNullFields sp.1, log4)
  match body with
  | .ok (m, log') =>
    (m, true,
     { r with issuesByModel := log', processed := r.processed + 1 })
  | .error (e, log') =>
    let msg := "Error processing model in " ++ fileName ++ " - " ++
      pyStr modelName ++ ": " ++ e
    (model, false,
     { r with issuesByModel := log', errors := r.errors ++ [msg],
              failed := r.failed + 1 })

/-- The `JSONModelFormatter.process_json_data` on a list of records (the
inner loop). -/
def processList (cache : List (String × String)) (fileName : String) :
    ModelReport → List JVal → List JVal × ModelReport
  | r, [] => ([], r)
  | r, model :: rest =>
    let (fm, success, r') := formatSingleModel cache fileName r model
    let (out, rEnd) := processList cache fileName r' rest
    (if success then fm :: out else out, rEnd)

/-- The single-record branch of `process_json_data`. -/
def processSingle (cache : List (String × String)) (fileName : String)
    (r : ModelReport) (v : JVal) : List JVal × ModelReport :=
  let r := { r with total := r.total + 1 }
  let t := formatSingleModel cache fileName r v
  (if t.2.1 then [t.1] else [], t.2.2)

/-- The `JSONModelFormatter.process_json_data`. -/
def processJsonData (cache : List (String × String)) (fileName : String)
    (r : ModelReport) (jsonData : JVal) : List JVal × ModelReport :=
  match jsonData with
  | jlist xs =>
    processList cache fileName { r with total := r.total + xs.length } xs
  | v => processSingle cache fileName r v

/-- The cleaned record produced by one run of the per-record pipeline
(successful records only; used for round-trip statements). -/
def pipelineOut (cache : List (String × String)) (fileName : String)
    (model : JVal) : JVal :=
  (formatSingleModel cache fileName ModelReport.init model).1

/-! ## APIKeyManager (lib/api_manager.py) -/

/-- The counter state of `APIKeyManager`. -/
structure APIKeyManager where
  apiKeys : List String
  maxCallsPerKey : Nat
  currentIndex : Nat
  callCount : Nat
  totalCalls : Nat
deriving DecidableEq

/-- The `APIKeyManager.__init__`: raises `ValueError` when the key list is
empty, otherwise starts at key 0 with zeroed counters (the default
quota is 15). -/
def APIKeyManager.make (apiKeys : List String)
    (maxCallsPerKey : Nat := 15) : Option APIKeyManager :=
  if apiKeys.isEmpty then none
  else some ⟨apiKeys, maxCallsPerKey, 0, 0, 0⟩

/-- The `get_current_key` (indexing is always in range under the rotation
invariant; out-of-range reads default to `""`). -/
def APIKeyManager.getCurrentKey (m : APIKeyManager) : String :=
  m.apiKeys.getD m.currentIndex ""

/-- The `get_current_key_number` (1-indexed). -/
def APIKeyManager.getCurrentKeyNumber (m : APIKeyManager) : Nat :=
  m.currentIndex + 1

/-- The `_rotate`. -/
def APIKeyManager.rotate (m : APIKeyManager) : APIKeyManager :=
  { m with currentIndex := (m.currentIndex + 1) % m.apiKeys.length,
           callCount := 0 }

/-- The `increment_call_count`. -/
def APIKeyManager.incrementCallCount (m : APIKeyManager) : APIKeyManager :=
  let m := { m with callCount := m.callCount + 1,
                    totalCalls := m.totalCalls + 1 }
  if m.callCount ≥ m.maxCallsPerKey then m.rotate else m

/-- The `rotate_on_failure`. -/
def APIKeyManager.rotateOnFailure (m : APIKeyManager) : APIKeyManager :=
  m.rotate

/-! ## GeminiAPIClient.capitalize_model_names_batch (lib/gemini_client.py)

The external call (`_make_api_call`) is abstracted as a function from
the credential used to `Option (List String)`: `none` models a raised
exception, `some r` a parsed response list `r`.  The prompt text does
not influence the control flow and is not modelled. -/

/-- Overwriting insertion for a string-keyed dict. -/
def strSet (kvs : List (String × String)) (k v : String) :
    List (String × String) :=
  match kvs with
  | [] => [(k, v)]
  | (k', v') :: rest =>
    if k' = k then (k, v) :: rest else (k', v') :: strSet rest k v

/-- The dict comprehension `{model_names[i]: result[i] for i in ...}`. -/
def buildMapping (names result : List String) : List (String × String) :=
  (List.zip names result).foldl (fun acc p => strSet acc p.1 p.2) []

/-- The retry loop of `capitalize_model_names_batch`.  `fuel` is the
remaining iterations of `for retry in range(max_retries)`, `tried` the
`tried_keys` set, and the returned list logs every credential passed to
`_make_api_call`, in order.  When the loop ends without a
length-matching success, the identity mapping is returned. -/
def capitalizeGo (attempt : String → Option (List String))
    (names : List String) :
    Nat → List String → APIKeyManager → List String →
    List (String × String) × APIKeyManager × List String
  | 0, _, m, log => (buildMapping names names, m, log)
  | fuel + 1, tried, m, log =>
    let key := m.getCurrentKey
    if tried.contains key then
      -- already tried: rotate_on_failure and continue
      capitalizeGo attempt names fuel tried m.rotateOnFailure log
    else
      let tried := key :: tried
      match attempt key with
      | some result =>
        if !result.isEmpty && result.length = names.length then
          (buildMapping names result, m.incrementCallCount, log ++ [key])
        else
          -- mismatched length: fall through to the next iteration
          -- without rotating
          capitalizeGo attempt names fuel tried m (log ++ [key])
      | none =>
        -- exception: classify, rotate_on_failure, continue
        capitalizeGo attempt names fuel tried m.rotateOnFailure (log ++ [key])

/-- The `GeminiAPIClient.capitalize_model_names_batch`: empty input returns
the empty mapping immediately; otherwise run the retry loop with
`len(self.api_manager.api_keys)` iterations. -/
def capitalizeModelNamesBatch (attempt : String → Option (List String))
    (names : List String) (m : APIKeyManager) :
    List (String × String) × APIKeyManager × List String :=
  if names.isEmpty then ([], m, [])
  else capitalizeGo attempt names m.apiKeys.length [] m []

/-! ## Spec-side definitions and observation predicates

The `...Claim` definitions below transcribe the wording of the spec of a
transformation, for comparison with the embedding of the source; the
`...Amended` definitions transcribe the amended wording. -/

/-- The spec version of `capitalizeWords`: split on single spaces, uppercase the
first character of each non-empty token whose first character is
lowercase, rejoin with single spaces; empty input unchanged.  (No
whitespace strip.) -/
def capitalizeWordsClaim (s : String) : String :=
  if s = "" then s
  else String.mk (joinSp ((splitSp s.data).map capWord))

/-- Amended `capitalizeWords`: first strip surrounding whitespace, then
proceed as the spec says. -/
def capitalizeWordsAmended (s : String) : String :=
  if s = "" then s
  else String.mk (joinSp ((splitSp (pyStrip s.data)).map capWord))

/-- The spec notion of per-token title case: first letter uppercased, all
remaining characters lowercased. -/
def titleTokenClaim (w : List Char) : List Char :=
  match w with
  | [] => []
  | c :: r => c.toUpper :: pyLower r

/-- The spec version of `toCamelCase`: split on spaces, title-case each token as
first-upper/rest-lower, lowercase the first token entirely, concatenate,
strip the punctuation class, strip remaining non-alphanumerics. -/
def camelCaseClaim (s : String) : String :=
  if s = "" then s
  else
    let parts := (splitSp s.data).map titleTokenClaim
    let parts :=
      match parts with
      | [] => []
      | p :: rest => pyLower p :: rest
    let r := parts.foldr (· ++ ·) []
    let r := r.filter (fun c => !camelPunct.contains c)
    String.mk (r.filter isAsciiAlnum)

/-- Amended `toCamelCase`: as the spec, except each token is title-cased
as the Python `str.title()` method does — every maximal letter run has its first
letter uppercased and the rest lowercased (a letter after a digit or
symbol starts a new run). -/
def camelCaseAmended (s : String) : String :=
  if s = "" then s
  else
    let parts := (splitSp s.data).map pyTitle
    let parts :=
      match parts with
      | [] => []
      | p :: rest => pyLower p :: rest
    let r := parts.foldr (· ++ ·) []
    let r := r.filter (fun c => !camelPunct.contains c)
    String.mk (r.filter isAsciiAlnum)

mutual

/-- Does a null value occur anywhere strictly inside the value? -/
def hasNullInside : JVal → Bool
  | jdict kvs => hasNullEntries kvs
  | jlist xs => hasNullList xs
  | _ => false

def hasNullEntries : List (String × JVal) → Bool
  | [] => false
  | (_, v) :: rest => isNone v || hasNullInside v || hasNullEntries rest

def hasNullList : List JVal → Bool
  | [] => false
  | v :: rest => isNone v || hasNullInside v || hasNullList rest

end

mutual

/-- No empty-string value outside the exempt keys and no empty sequence
occurs anywhere inside the value. -/
def noBad : JVal → Bool
  | jdict kvs => noBadEntries kvs
  | jlist xs => noBadList xs
  | _ => true

def noBadEntries : List (String × JVal) → Bool
  | [] => true
  | (k, v) :: rest =>
    (if isEmptyList v then false
     else if isEmptyStr v then mediaEmptyFields.contains k
     else true) && noBad v && noBadEntries rest

def noBadList : List JVal → Bool
  | [] => true
  | v :: rest =>
    !isEmptyStr v && !isEmptyList v && noBad v && noBadList rest

end

/-- Whether `v[sect]` is a mapping containing `key` (observation used to
separate two pipeline outputs). -/
def hasSpecKey (v : JVal) (sect key : String) : Bool :=
  match v with
  | jdict kvs =>
    match dictGet? kvs sect with
    | some (jdict e) => dictMem e key
    | _ => false
  | _ => false

/-- Number of records in one `process_json_data` input. -/
def numRecords : JVal → Nat
  | jlist xs => xs.length
  | _ => 1

/-- Reportable dropped image entry: a string whose URL is invalid, or a
mapping that has `"src"` with an invalid URL (other shapes are dropped
without a report). -/
def imgEntryDropped (e : JVal) : Bool :=
  match e with
  | jstr s => !isValidUrlVal (jstr s)
  | jdict kvs =>
    dictMem kvs "src" && !isValidUrlVal ((dictGet? kvs "src").getD jnull)
  | _ => false

/-- The issue text reported for a dropped image entry of the given
shape. -/
def imgDropIssue (e : JVal) (idx : Nat) (f m : String) : String :=
  match e with
  | jstr _ => imgDropStrMsg idx f m
  | _ => imgDropMsg idx f m

/-- Reportable dropped attachment entry: a string that is empty or has
an invalid URL, or any mapping whose resolved URL key is missing, falsy
or invalid. -/
def attEntryDropped (e : JVal) : Bool :=
  match e with
  | jstr s => !(truthy (jstr s) && isValidUrlVal (jstr s))
  | jdict kvs =>
    if dictMem kvs "attachmentLocation" then
      let v := (dictGet? kvs "attachmentLocation").getD jnull
      !(truthy v && isValidUrlVal v)
    else if dictMem kvs "src" then
      let v := (dictGet? kvs "src").getD jnull
      !(truthy v && isValidUrlVal v)
    else true
  | _ => false

/-- The issue text reported for a dropped attachment entry of the given
shape. -/
def attDropIssue (e : JVal) (idx : Nat) (f m : String) : String :=
  match e with
  | jstr _ => attDropStrMsg idx f m
  | _ => attDropMsg idx f m

/-- Reportable dropped video entry: a string whose URL is invalid, or
any mapping whose resolved URL key (`"src"`, else `"videoLocation"`) is
missing or holds an invalid URL — every dropped mapping or string video
is reported; other shapes are dropped without a report. -/
def vidEntryDropped (e : JVal) : Bool :=
  match e with
  | jstr s => !isValidUrlVal (jstr s)
  | jdict kvs =>
    if dictMem kvs "src" then
      !isValidUrlVal ((dictGet? kvs "src").getD jnull)
    else if dictMem kvs "videoLocation" then
      !isValidUrlVal ((dictGet? kvs "videoLocation").getD jnull)
    else true
  | _ => false

/-- The issue text reported for a dropped video entry of the given
shape. -/
def vidDropIssue (e : JVal) (idx : Nat) (f m : String) : String :=
  match e with
  | jstr _ => vidDropStrMsg idx f m
  | _ => vidDropMsg idx f m

/-- A well-formed record with one spec section whose key needs
camel-casing (round-trip example). -/
def exC3 : JVal :=
  jdict [("general", jdict
    [("manufacturer", jstr "Acme"), ("model", jstr "M1"),
     ("year", jint 2020), ("msrp", jint 0), ("category", jstr "Cat"),
     ("subcategory", jstr "Sub"), ("description", jstr "d"),
     ("countries", jlist [jstr "US", jstr "CA"])]),
    ("other", jdict [("Max Load",
      jdict [("label", jstr "L"), ("desc", jstr "5")])])]

/-- The `exC3` after one pipeline pass: the spec key became `maxLoad`. -/
def exC3out1 : JVal :=
  jdict [("general", jdict
    [("manufacturer", jstr "Acme"), ("model", jstr "M1"),
     ("year", jint 2020), ("msrp", jint 0), ("category", jstr "Cat"),
     ("subcategory", jstr "Sub"), ("description", jstr "d"),
     ("countries", jlist [jstr "US", jstr "CA"])]),
    ("other", jdict [("maxLoad",
      jdict [("label", jstr "L"), ("desc", jstr "5")])])]

/-- The `exC3` after two pipeline passes: the spec key collapsed to
`maxload`. -/
def exC3out2 : JVal :=
  jdict [("general", jdict
    [("manufacturer", jstr "Acme"), ("model", jstr "M1"),
     ("year", jint 2020), ("msrp", jint 0), ("category", jstr "Cat"),
     ("subcategory", jstr "Sub"), ("description", jstr "d"),
     ("countries", jlist [jstr "US", jstr "CA"])]),
    ("other", jdict [("maxload",
      jdict [("label", jstr "L"), ("desc", jstr "5")])])]

/-! # Theorems -/

/-- Auxiliary: looking up a freshly assigned dict key yields the
assigned value. -/
theorem dictGet_dictSet (kvs : List (String × JVal)) (k : String) (v : JVal) :
    dictGet? (dictSet kvs k v) k = some v := by
  induction kvs with
  | nil => simp [dictSet, dictGet?]
  | cons kv rest ih =>
    obtain ⟨k', v'⟩ := kv
    by_cases h : k' = k
    · simp [dictSet, h, dictGet?]
    · simp [dictSet, h, dictGet?, List.find?]
      simpa [dictGet?] using ih

/-- Auxiliary: a string equals `""` exactly when its character list is
empty. -/
theorem string_data_eq_nil {s : String} (h : s ≠ "") : s.data ≠ [] := by
  intro hd
  apply h
  cases s
  simp_all

/-- C4, counterexample.  The claim describes `capitalize_words` as
splitting on single spaces with no whitespace strip; on `" a"` that
algorithm yields `" A"`, while the code strips first and yields `"A"`. -/
theorem c4_capitalize_words_counterexample :
    capitalizeWords " a" = "A" ∧ capitalizeWordsClaim " a" = " A" ∧
      capitalizeWords " a" ≠ capitalizeWordsClaim " a" := by
  refine ⟨by decide, by decide, by decide⟩

/-- C4 (amended): `capitalize_words` first strips surrounding
whitespace, then splits on single spaces, uppercases the first character
of each non-empty token whose first character is lowercase, rejoins with
single spaces; non-string and empty input are returned unchanged; in
particular `capitalize_words "hydraulic DOCK" = "Hydraulic DOCK"`. -/
theorem c4_capitalize_words_amended :
    (∀ s : String, capitalizeWords s = capitalizeWordsAmended s) ∧
      capitalizeWords "hydraulic DOCK" = "Hydraulic DOCK" ∧
      (∀ v : JVal, (∀ s, v ≠ jstr s) → capitalizeWordsVal v = v) := by
  refine ⟨?_, by decide, ?_⟩
  · intro s
    by_cases h : s = ""
    · simp [h, capitalizeWords, capitalizeWordsAmended]
    · have hd : s.data ≠ [] := string_data_eq_nil h
      simp [capitalizeWords, capitalizeWordsAmended, capitalizeWordsL, h, hd]
  · intro v hv
    cases v with
    | jstr s => exact absurd rfl (hv s)
    | jnull => rfl
    | jbool b => rfl
    | jint n => rfl
    | jfloat d => rfl
    | jlist xs => rfl
    | jdict kvs => rfl

/-- Witness for C4 (amended) at concrete inputs. -/
theorem c4_capitalize_words_amended_witness :
    capitalizeWords "hydraulic DOCK" = "Hydraulic DOCK" ∧
      capitalizeWordsVal (jint 7) = jint 7 :=
  ⟨c4_capitalize_words_amended.2.1,
   c4_capitalize_words_amended.2.2 (jint 7) (fun s h => by cases h)⟩

/-- C8, counterexample.  The claim title-cases each space token as
first-upper/rest-lower; the Python `str.title()` method instead restarts
capitalization at every non-letter, so on `"x ab-cd"` the code yields
`"xAbCd"` while the claimed algorithm yields `"xAbcd"`. -/
theorem c8_camel_case_counterexample :
    camelCase "x ab-cd" = "xAbCd" ∧ camelCaseClaim "x ab-cd" = "xAbcd" ∧
      camelCase "x ab-cd" ≠ camelCaseClaim "x ab-cd" := by
  refine ⟨by decide, by decide, by decide⟩

/-- C8 (amended): `camel_case` splits on spaces, title-cases each token
as Python `str.title()` (each maximal letter run gets first letter
uppercased, the rest lowercased), lowercases the first token entirely,
concatenates, strips the fixed punctuation class, then strips any
remaining non-alphanumeric character. -/
theorem c8_camel_case_amended :
    ∀ s : String, camelCase s = camelCaseAmended s := by
  intro s
  by_cases h : s = ""
  · simp [h, camelCase, camelCaseAmended]
  · have hd : s.data ≠ [] := string_data_eq_nil h
    simp [camelCase, camelCaseAmended, camelCaseL, h, hd]

/-- C9: `APIKeyManager` construction fails on an empty pool; under the
rotation invariants, `recordSuccess` (`increment_call_count`) bumps both
counters and rotates-and-resets exactly when the per-credential counter
reaches the quota; `recordFailure` rotates unconditionally; `current`
and `currentIndex` report the active credential and its 1-based
position. -/
theorem c9_api_key_manager (m : APIKeyManager)
    (_hq : 1 ≤ m.maxCallsPerKey) (hc : m.callCount < m.maxCallsPerKey)
    (hi : m.currentIndex < m.apiKeys.length) :
    APIKeyManager.make [] 15 = none ∧
    m.getCurrentKey = m.apiKeys.get ⟨m.currentIndex, hi⟩ ∧
    m.getCurrentKeyNumber = m.currentIndex + 1 ∧
    m.incrementCallCount.totalCalls = m.totalCalls + 1 ∧
    (m.callCount + 1 = m.maxCallsPerKey →
      m.incrementCallCount =
        { m with currentIndex := (m.currentIndex + 1) % m.apiKeys.length,
                 callCount := 0, totalCalls := m.totalCalls + 1 }) ∧
    (m.callCount + 1 ≠ m.maxCallsPerKey →
      m.incrementCallCount =
        { m with callCount := m.callCount + 1,
                 totalCalls := m.totalCalls + 1 }) ∧
    m.rotateOnFailure =
      { m with currentIndex := (m.currentIndex + 1) % m.apiKeys.length,
               callCount := 0 } := by
  refine ⟨rfl, ?_, rfl, ?_, ?_, ?_, rfl⟩
  · simp [APIKeyManager.getCurrentKey, List.getD_eq_getElem?_getD,
      List.getElem?_eq_getElem hi]
  · unfold APIKeyManager.incrementCallCount
    by_cases h : m.callCount + 1 ≥ m.maxCallsPerKey <;>
      simp [h, APIKeyManager.rotate]
  · intro h
    unfold APIKeyManager.incrementCallCount
    simp only [h, ge_iff_le, le_refl, if_pos]
    simp [APIKeyManager.rotate]
  · intro h
    have hlt : ¬ m.callCount + 1 ≥ m.maxCallsPerKey := by omega
    unfold APIKeyManager.incrementCallCount
    simp [hlt]

/-- Witness for C9 at a concrete manager state. -/
theorem c9_api_key_manager_witness :
    (1 ≤ 2 ∧ (1 : Nat) < 2 ∧ (0 : Nat) < 2) ∧
      (APIKeyManager.incrementCallCount ⟨["a", "b"], 2, 0, 1, 5⟩ =
        ⟨["a", "b"], 2, 1, 0, 6⟩) := by
  refine ⟨⟨by decide, by decide, by decide⟩, ?_⟩
  have h := c9_api_key_manager ⟨["a", "b"], 2, 0, 1, 5⟩
    (by decide) (by decide) (by decide)
  exact h.2.2.2.2.1 (by decide)

/-- Auxiliary: a successful dict lookup implies membership. -/
theorem dictMem_of_get {kvs : List (String × JVal)} {k : String} {v : JVal}
    (h : dictGet? kvs k = some v) : dictMem kvs k = true := by
  induction kvs with
  | nil => simp [dictGet?] at h
  | cons kv rest ih =>
    by_cases hk : kv.1 = k
    · simp [dictMem, hk]
    · simp only [dictGet?, List.find?] at h
      rw [show (decide (kv.1 = k)) = false by simpa using hk] at h
      simp only [dictMem, List.any_cons]
      rw [show (decide (kv.1 = k)) = false by simpa using hk]
      simpa [dictMem] using ih (by simpa [dictGet?] using h)

/-- C7, counterexample.  The claim says msrp is non-negative after
validation; the code parses `"-5"` to the negative integer `-5`. -/
theorem c7_msrp_counterexample :
    dictGet? (validateMsrp [("msrp", jstr "-5")] "f" "m").1 "msrp" =
      some (jint (-5)) ∧ (-5 : Int) < 0 :=
  ⟨rfl, by decide⟩

/-- C7 (amended): after msrp validation, a string/null/int/float msrp is
an int or float (of either sign): string values have commas stripped and
parse as a float demoted to int when integral (`"12,500"` ↦ `12500`,
`"12,500.50"` ↦ `12500.5`), empty or unparseable strings and null become
`0`, and int/float values pass through unchanged. -/
theorem c7_msrp_amended (kvs : List (String × JVal)) (f m : String)
    (v : JVal) (h : dictGet? kvs "msrp" = some v)
    (hshape : v = jnull ∨ (∃ s, v = jstr s) ∨ (∃ n, v = jint n) ∨
      (∃ d, v = jfloat d)) :
    (∃ w, dictGet? (validateMsrp kvs f m).1 "msrp" = some w ∧
      ((∃ n, w = jint n) ∨ (∃ d, w = jfloat d))) ∧
    validateMsrp [("msrp", jstr "12,500")] "f" "m" =
      ([("msrp", jint 12500)], ["Formatted MSRP: 12500 in f - m"]) ∧
    validateMsrp [("msrp", jstr "12,500.50")] "f" "m" =
      ([("msrp", jfloat ⟨125005, 1⟩)],
       ["Formatted MSRP: 12500.5 in f - m"]) ∧
    validateMsrp [("msrp", jnull)] "f" "m" = ([("msrp", jint 0)], []) := by
  have hmem : dictMem kvs "msrp" = true := dictMem_of_get h
  refine ⟨?_, rfl, rfl, rfl⟩
  rcases hshape with rfl | ⟨s, rfl⟩ | ⟨n, rfl⟩ | ⟨d, rfl⟩
  · simp only [validateMsrp, hmem, if_true, h, Option.getD_some]
    exact ⟨jint 0, dictGet_dictSet .., .inl ⟨0, rfl⟩⟩
  · simp only [validateMsrp, hmem, if_true, h, Option.getD_some]
    by_cases hc : String.mk (pyStrip (s.data.filter (fun c => c ≠ ','))) = ""
    · rw [if_neg (fun hh => hh hc)]
      exact ⟨jint 0, dictGet_dictSet .., .inl ⟨0, rfl⟩⟩
    · simp only [if_pos hc]
      cases hf : pyFloat? (String.mk (pyStrip (s.data.filter (fun c => c ≠ ',')))) with
      | some d =>
        by_cases hi : d.isInteger
        · simp only [hf, hi, if_true]
          exact ⟨jint d.toIntTrunc, dictGet_dictSet .., .inl ⟨_, rfl⟩⟩
        · simp only [hf, hi]
          exact ⟨jfloat d, by simpa using dictGet_dictSet kvs "msrp" (jfloat d),
            .inr ⟨d, rfl⟩⟩
      | none =>
        simp only [hf]
        exact ⟨jint 0, dictGet_dictSet .., .inl ⟨0, rfl⟩⟩
  · simp only [validateMsrp, hmem, if_true, h, Option.getD_some]
    exact ⟨jint n, rfl, .inl ⟨n, rfl⟩⟩
  · simp only [validateMsrp, hmem, if_true, h, Option.getD_some]
    exact ⟨jfloat d, rfl, .inr ⟨d, rfl⟩⟩

/-- Witness for C7 (amended) at a concrete record. -/
theorem c7_msrp_amended_witness :
    dictGet? [("msrp", jstr "-5")] "msrp" = some (jstr "-5") ∧
      (∃ w, dictGet? (validateMsrp [("msrp", jstr "-5")] "f" "m").1 "msrp" =
        some w ∧ ((∃ n, w = jint n) ∨ (∃ d, w = jfloat d))) :=
  ⟨rfl, (c7_msrp_amended [("msrp", jstr "-5")] "f" "m" (jstr "-5") rfl
    (.inr (.inl ⟨"-5", rfl⟩))).1⟩

/-- C2, counterexample.  Stripping `{"a": [""]}` first keeps the entry
`"a"` (its value `[""]` is a non-empty sequence at test time), then the
sequence strips to empty and becomes null — so the emitted record
contains a null value, contradicting the claimed consequence. -/
theorem c2_remove_null_counterexample :
    removeNullFields (jdict [("a", jlist [jstr ""])]) =
      jdict [("a", jnull)] ∧
    hasNullInside (removeNullFields (jdict [("a", jlist [jstr ""])])) = true :=
  ⟨rfl, rfl⟩

/-- C5, counterexample.  A numeric entry in `images`, `videos` or
`attachments` is dropped from the sequence with no issue reported, and
so is an image mapping lacking `"src"`: the claim that every dropped
entry is reported with its index fails for all three media kinds. -/
theorem c5_media_counterexample :
    validateImages (jdict [("images", jlist [jint 5])]) "f" "m" =
      .ok (jdict [("images", jnull)], []) ∧
    validateVideos (jdict [("videos", jlist [jint 5])]) "f" "m" =
      .ok (jdict [("videos", jnull)], []) ∧
    validateAttachments (jdict [("attachments", jlist [jint 5])]) "f" "m" =
      .ok (jdict [("attachments", jnull)], []) ∧
    validateImages (jdict [("images", jlist [jdict [("x", jint 1)]])]) "f" "m" =
      .ok (jdict [("images", jnull)], []) :=
  ⟨rfl, rfl, rfl, rfl⟩

/-- C1, counterexample.  With two credentials and a service that always
returns a response of mismatched length (without raising), the loop
consumes its second retry skipping the already-tried credential (no
rotation happened on the mismatch), so `"k2"` is never attempted — yet
the identity mapping is still returned. -/
theorem c1_gemini_counterexample :
    APIKeyManager.make ["k1", "k2"] 15 = some ⟨["k1", "k2"], 15, 0, 0, 0⟩ ∧
    (capitalizeModelNamesBatch (fun _ => some ["z"]) ["a", "b"]
        ⟨["k1", "k2"], 15, 0, 0, 0⟩).1 = [("a", "a"), ("b", "b")] ∧
    (capitalizeModelNamesBatch (fun _ => some ["z"]) ["a", "b"]
        ⟨["k1", "k2"], 15, 0, 0, 0⟩).2.2 = ["k1"] ∧
    "k2" ∉ (capitalizeModelNamesBatch (fun _ => some ["z"]) ["a", "b"]
        ⟨["k1", "k2"], 15, 0, 0, 0⟩).2.2 :=
  ⟨rfl, rfl, rfl, by decide⟩

/-- Auxiliary: equality-with-a-string under `jvalBeq`. -/
theorem jvalBeq_jstr {c : JVal} {t : String}
    (h : jvalBeq c (jstr t) = true) : c = jstr t := by
  cases c <;> simp [jvalBeq] at h ⊢
  exact h

/-- Auxiliary: value equality of lists forces equal lengths. -/
theorem jvalBeqList_length :
    ∀ {a b : List JVal}, jvalBeqList a b = true → a.length = b.length := by
  intro a
  induction a with
  | nil => intro b h; cases b <;> simp_all [jvalBeqList]
  | cons x xs ih =>
    intro b h
    cases b with
    | nil => simp [jvalBeqList] at h
    | cons y ys =>
      simp only [jvalBeqList, Bool.and_eq_true] at h
      simpa [List.length_cons] using ih h.2

/-- Auxiliary: if filtering a list leaves a value-equal list, every
element satisfied the filter. -/
theorem forall_of_filterBeq (p : JVal → Bool) :
    ∀ (l : List JVal), jvalBeqList (l.filter p) l = true →
      ∀ x ∈ l, p x = true := by
  intro l
  induction l with
  | nil => intro _ x hx; cases hx
  | cons y ys ih =>
    intro h x hx
    by_cases hp : p y
    · rw [List.filter_cons_of_pos hp] at h
      simp only [jvalBeqList, Bool.and_eq_true] at h
      rcases List.mem_cons.mp hx with rfl | hx
      · exact hp
      · exact ih h.2 x hx
    · rw [List.filter_cons_of_neg (by simpa using hp)] at h
      have hlen := jvalBeqList_length h
      have : (ys.filter p).length ≤ ys.length := List.length_filter_le p ys
      simp [List.length_cons] at hlen
      omega

/-- Auxiliary: the default countries value satisfies the invariant. -/
theorem validCountries_ok :
    validCountriesJ ≠ [] ∧
      ∀ x ∈ validCountriesJ, x = jstr "US" ∨ x = jstr "CA" := by
  constructor
  · simp [validCountriesJ]
  · intro x hx
    simp only [validCountriesJ, List.mem_cons, List.mem_singleton,
      List.not_mem_nil, or_false] at hx
    rcases hx with rfl | rfl
    · exact .inl rfl
    · exact .inr rfl

/-- C6: after `_validate_countries`, the countries field is a non-empty
sequence over `{US, CA}`; an empty, invalid or missing value becomes the
full default with a reported issue, and filtered-out members are
reported (`["US","MX","CA"]` loses `["MX"]`). -/
theorem c6_countries (kvs : List (String × JVal)) (f m : String) :
    (∃ l, dictGet? (validateCountries kvs f m).1 "countries" =
        some (jlist l) ∧ l ≠ [] ∧
        ∀ x ∈ l, x = jstr "US" ∨ x = jstr "CA") ∧
    validateCountries [("countries", jlist [jstr "US", jstr "MX", jstr "CA"])]
        "f" "m" =
      ([("countries", jlist [jstr "US", jstr "CA"])],
       ["Removed invalid countries [\x27MX\x27] in f - m"]) ∧
    validateCountries [("countries", jlist [])] "f" "m" =
      ([("countries", jlist [jstr "US", jstr "CA"])],
       ["Empty or invalid countries, set to default [\x27US\x27, \x27CA\x27] in f - m"]) ∧
    validateCountries [] "f" "m" =
      ([("countries", jlist [jstr "US", jstr "CA"])],
       ["Missing countries field, set to default [\x27US\x27, \x27CA\x27] in f - m"]) := by
  refine ⟨?_, rfl, rfl, rfl⟩
  by_cases hm : dictMem kvs "countries"
  · have hdef : ∀ msg : String,
        (∃ l, dictGet? (dictSet kvs "countries" (jlist validCountriesJ))
            "countries" = some (jlist l) ∧ l ≠ [] ∧
            ∀ x ∈ l, x = jstr "US" ∨ x = jstr "CA") :=
      fun _ => ⟨validCountriesJ, dictGet_dictSet .., validCountries_ok.1,
        validCountries_ok.2⟩
    cases hv : (dictGet? kvs "countries").getD jnull with
    | jlist xs =>
      cases xs with
      | nil =>
        simp only [validateCountries, hm, if_true, hv]
        exact hdef ""
      | cons x rest =>
        simp only [validateCountries, hm, if_true, hv]
        set p : JVal → Bool :=
          fun c => validCountriesJ.any (fun v => jvalBeq c v) with hp
        by_cases hfe : ((x :: rest).filter p).isEmpty
        · simp only [hfe, if_true]
          exact hdef ""
        · simp only [hfe, Bool.false_eq_true, if_false]
          by_cases hbeq : jvalBeqList ((x :: rest).filter p) (x :: rest)
          · simp only [hbeq, if_true]
            have hsome : dictGet? kvs "countries" = some (jlist (x :: rest)) := by
              cases hgg : dictGet? kvs "countries" with
              | none => rw [hgg] at hv; simp at hv
              | some w => rw [hgg] at hv; simp at hv; rw [hv]
            refine ⟨x :: rest, hsome, by simp, ?_⟩
            intro c hc
            have hpc := forall_of_filterBeq p (x :: rest) hbeq c hc
            simp only [hp, validCountriesJ, List.any_cons, List.any_nil,
              Bool.or_false, Bool.or_eq_true] at hpc
            rcases hpc with h1 | h2
            · exact .inl (jvalBeq_jstr h1)
            · exact .inr (jvalBeq_jstr h2)
          · simp only [hbeq, Bool.false_eq_true, if_false]
            refine ⟨(x :: rest).filter p, dictGet_dictSet .., ?_, ?_⟩
            · intro hnil
              rw [hnil] at hfe
              simp at hfe
            · intro c hc
              have hpc := (List.mem_filter.mp hc).2
              simp only [hp, validCountriesJ, List.any_cons, List.any_nil,
                Bool.or_false, Bool.or_eq_true] at hpc
              rcases hpc with h1 | h2
              · exact .inl (jvalBeq_jstr h1)
              · exact .inr (jvalBeq_jstr h2)
    | jnull =>
      simp only [validateCountries, hm, if_true, hv]
      exact hdef ""
    | jbool b =>
      simp only [validateCountries, hm, if_true, hv]
      exact hdef ""
    | jint n =>
      simp only [validateCountries, hm, if_true, hv]
      exact hdef ""
    | jfloat d =>
      simp only [validateCountries, hm, if_true, hv]
      exact hdef ""
    | jstr t =>
      simp only [validateCountries, hm, if_true, hv]
      exact hdef ""
    | jdict kvs2 =>
      simp only [validateCountries, hm, if_true, hv]
      exact hdef ""
  · simp only [validateCountries, hm, Bool.false_eq_true, if_false]
    exact ⟨validCountriesJ, dictGet_dictSet .., validCountries_ok.1,
      validCountries_ok.2⟩

/-- Auxiliary: one record changes `total` not at all and
`processed + failed` by exactly one. -/
theorem formatSingle_counters (cache : List (String × String))
    (f : String) (r : ModelReport) (v : JVal) :
    (formatSingleModel cache f r v).2.2.total = r.total ∧
    (formatSingleModel cache f r v).2.2.processed +
      (formatSingleModel cache f r v).2.2.failed =
      r.processed + r.failed + 1 := by
  unfold formatSingleModel
  dsimp only
  split <;> simp <;> omega

/-- Auxiliary: the record loop of `process_json_data`. -/
theorem processList_counters (cache : List (String × String)) (f : String) :
    ∀ (xs : List JVal) (r : ModelReport),
      (processList cache f r xs).2.total = r.total ∧
      (processList cache f r xs).2.processed +
        (processList cache f r xs).2.failed =
        r.processed + r.failed + xs.length := by
  intro xs
  induction xs with
  | nil => intro r; simp [processList]
  | cons x rest ih =>
    intro r
    have h1 := formatSingle_counters cache f r x
    have h2 := ih (formatSingleModel cache f r x).2.2
    unfold processList
    rcases hfm : formatSingleModel cache f r x with ⟨fm, success, r'⟩
    rw [hfm] at h1 h2
    dsimp only at h1 h2 ⊢
    rcases hpl : processList cache f r' rest with ⟨out, rEnd⟩
    rw [hpl] at h2
    dsimp only at h2 ⊢
    constructor
    · omega
    · simp only [List.length_cons]
      omega

/-- C10: `process_json_data` adds the number of records to `total`,
each record increments exactly one of `processed`/`failed`, and the
invariant `total = processed + failed` is preserved. -/
theorem c10_report_invariant (cache : List (String × String)) (f : String)
    (r : ModelReport) (j : JVal)
    (h : r.total = r.processed + r.failed) :
    (processJsonData cache f r j).2.total = r.total + numRecords j ∧
    (processJsonData cache f r j).2.processed +
      (processJsonData cache f r j).2.failed =
      r.processed + r.failed + numRecords j ∧
    (processJsonData cache f r j).2.total =
      (processJsonData cache f r j).2.processed +
        (processJsonData cache f r j).2.failed := by
  have hsingle : ∀ v : JVal,
      (processSingle cache f r v).2.total = r.total + 1 ∧
      (processSingle cache f r v).2.processed +
        (processSingle cache f r v).2.failed =
        r.processed + r.failed + 1 := by
    intro v
    obtain ⟨hA, hB⟩ :=
      formatSingle_counters cache f { r with total := r.total + 1 } v
    unfold processSingle
    dsimp only
    dsimp only at hA hB
    exact ⟨hA, hB⟩
  cases j with
  | jlist xs =>
    obtain ⟨hA, hB⟩ := processList_counters cache f xs
      { r with total := r.total + xs.length }
    dsimp only at hA hB
    simp only [processJsonData, numRecords]
    exact ⟨hA, hB, by omega⟩
  | jnull =>
    obtain ⟨hA, hB⟩ := hsingle jnull
    simp only [processJsonData, numRecords]
    exact ⟨hA, hB, by omega⟩
  | jbool b =>
    obtain ⟨hA, hB⟩ := hsingle (jbool b)
    simp only [processJsonData, numRecords]
    exact ⟨hA, hB, by omega⟩
  | jint n =>
    obtain ⟨hA, hB⟩ := hsingle (jint n)
    simp only [processJsonData, numRecords]
    exact ⟨hA, hB, by omega⟩
  | jfloat d =>
    obtain ⟨hA, hB⟩ := hsingle (jfloat d)
    simp only [processJsonData, numRecords]
    exact ⟨hA, hB, by omega⟩
  | jstr t =>
    obtain ⟨hA, hB⟩ := hsingle (jstr t)
    simp only [processJsonData, numRecords]
    exact ⟨hA, hB, by omega⟩
  | jdict kvs =>
    obtain ⟨hA, hB⟩ := hsingle (jdict kvs)
    simp only [processJsonData, numRecords]
    exact ⟨hA, hB, by omega⟩

/-- Witness for C10 on a two-record list (one processed, one failed). -/
theorem c10_report_invariant_witness :
    ModelReport.init.total = ModelReport.init.processed + ModelReport.init.failed ∧
    (processJsonData [] "f" ModelReport.init
        (jlist [jstr "x", jint 5])).2.total =
      ModelReport.init.total + numRecords (jlist [jstr "x", jint 5]) ∧
    (processJsonData [] "f" ModelReport.init
        (jlist [jstr "x", jint 5])).2.total =
      (processJsonData [] "f" ModelReport.init
          (jlist [jstr "x", jint 5])).2.processed +
        (processJsonData [] "f" ModelReport.init
            (jlist [jstr "x", jint 5])).2.failed := by
  have h := c10_report_invariant [] "f" ModelReport.init
    (jlist [jstr "x", jint 5]) rfl
  exact ⟨rfl, h.1, h.2.2⟩

/-- Auxiliary: cleaning never yields an empty sequence. -/
theorem cleanVal_ne_emptyList : ∀ w : JVal, isEmptyList (cleanVal w) = false := by
  intro w
  cases w with
  | jlist xs =>
    unfold cleanVal
    cases hcl : cleanList xs with
    | nil => rfl
    | cons y ys => simp [isEmptyList]
  | jdict kvs => rfl
  | jnull => rfl
  | jbool b => rfl
  | jint n => rfl
  | jfloat d => rfl
  | jstr s => rfl

/-- Auxiliary: cleaning cannot produce an empty string from a non-empty
value. -/
theorem cleanVal_ne_emptyStr :
    ∀ w : JVal, isEmptyStr w = false → isEmptyStr (cleanVal w) = false := by
  intro w h
  cases w with
  | jlist xs =>
    unfold cleanVal
    cases hcl : cleanList xs with
    | nil => rfl
    | cons y ys => rfl
  | jdict kvs => rfl
  | jnull => rfl
  | jbool b => rfl
  | jint n => rfl
  | jfloat d => rfl
  | jstr s => simpa [cleanVal] using h

mutual

/-- Cleaned values contain no empty string outside exempt keys and no
empty sequence. -/
theorem noBad_cleanVal : ∀ v : JVal, noBad (cleanVal v) = true
  | jnull => rfl
  | jbool _ => rfl
  | jint _ => rfl
  | jfloat _ => rfl
  | jstr _ => rfl
  | jlist xs => by
    have h := noBad_cleanList xs
    unfold cleanVal
    cases hcl : cleanList xs with
    | nil => rfl
    | cons y ys =>
      rw [hcl] at h
      simpa [noBad] using h
  | jdict kvs => by
    have h := noBad_cleanEntries kvs
    simpa [cleanVal, noBad] using h

/-- Dict-entry part of `noBad_cleanVal`. -/
theorem noBad_cleanEntries :
    ∀ kvs : List (String × JVal), noBadEntries (cleanEntries kvs) = true
  | [] => rfl
  | (k, v) :: rest => by
    have hrest := noBad_cleanEntries rest
    unfold cleanEntries
    by_cases h1 : mediaEmptyFields.contains k && isEmptyStr v
    · rw [if_pos h1]
      obtain ⟨hk, hs⟩ := Bool.and_eq_true _ _ ▸ h1
      cases v with
      | jstr s =>
        simp only [noBadEntries, Bool.and_eq_true]
        refine ⟨⟨?_, rfl⟩, hrest⟩
        have hkm : k ∈ mediaEmptyFields := List.mem_of_elem_eq_true hk
        simp [isEmptyList, isEmptyStr, hs, hkm]
      | jnull => simp [isEmptyStr] at hs
      | jbool b => simp [isEmptyStr] at hs
      | jint n => simp [isEmptyStr] at hs
      | jfloat d => simp [isEmptyStr] at hs
      | jlist xs => simp [isEmptyStr] at hs
      | jdict kvs2 => simp [isEmptyStr] at hs
    · rw [if_neg (by simpa using h1)]
      by_cases h2 : !isNone v && !isEmptyList v &&
          !(isEmptyStr v && !mediaEmptyFields.contains k)
      · rw [if_pos h2]
        have hv := noBad_cleanVal v
        have hes : isEmptyStr v = false := by
          by_contra hne
          have hse : isEmptyStr v = true := by
            cases hx : isEmptyStr v
            · exact absurd hx hne
            · rfl
          have hnk : mediaEmptyFields.contains k = false := by
            cases hx : mediaEmptyFields.contains k
            · rfl
            · exact absurd (by rw [hx, hse]; rfl) h1
          rw [hse, hnk] at h2
          simp at h2
        simp only [noBadEntries, Bool.and_eq_true]
        refine ⟨⟨?_, hv⟩, hrest⟩
        rw [cleanVal_ne_emptyList v, cleanVal_ne_emptyStr v hes]
        simp
      · rw [if_neg (by simpa using h2)]
        exact hrest

/-- List-element part of `noBad_cleanVal`. -/
theorem noBad_cleanList :
    ∀ xs : List JVal, noBadList (cleanList xs) = true
  | [] => rfl
  | v :: rest => by
    have hrest := noBad_cleanList rest
    unfold cleanList
    by_cases h : !isNone v && !isEmptyStr v && !isEmptyList v
    · rw [if_pos h]
      have hv := noBad_cleanVal v
      have hes : isEmptyStr v = false := by
        rcases Bool.and_eq_true _ _ ▸ h with ⟨h12, _⟩
        rcases Bool.and_eq_true _ _ ▸ h12 with ⟨_, hs⟩
        simpa using hs
      simp only [noBadList, Bool.and_eq_true]
      exact ⟨⟨⟨by simp [cleanVal_ne_emptyStr v hes],
        by simp [cleanVal_ne_emptyList v]⟩, hv⟩, hrest⟩
    · rw [if_neg (by simpa using h)]
      exact hrest

end

/-- C2 (amended): the null-stripping pass leaves no empty string outside
the exempt keys `desc`/`longDesc`/`attachmentName` and no empty
sequence anywhere in the record (nulls, however, can remain where a
nested kept sequence stripped to empty — see the counterexample). -/
theorem c2_remove_null_amended : ∀ v : JVal, noBad (removeNullFields v) = true :=
  fun v => noBad_cleanVal v

/-- Auxiliary: the images loop reports every reportable dropped entry
at its enumeration index. -/
theorem imagesGo_reports (f m : String) :
    ∀ (xs : List JVal) (k i : Nat) (hi : i < xs.length),
      imgEntryDropped (xs.get ⟨i, hi⟩) = true →
      imgDropIssue (xs.get ⟨i, hi⟩) (k + i) f m ∈ (imagesGo f m k xs).2 := by
  intro xs
  induction xs with
  | nil => intro k i hi; cases hi
  | cons e rest ih =>
    intro k i hi hd
    cases i with
    | zero =>
      simp only [List.get] at hd ⊢
      cases e with
      | jstr s =>
        simp only [imgEntryDropped, Bool.not_eq_true'] at hd
        simp [imagesGo, hd, imgDropIssue, Nat.add_zero]
      | jdict kvs =>
        simp only [imgEntryDropped, Bool.and_eq_true, Bool.not_eq_true'] at hd
        simp [imagesGo, hd.1, hd.2, imgDropIssue, Nat.add_zero]
      | jnull => simp [imgEntryDropped] at hd
      | jbool b => simp [imgEntryDropped] at hd
      | jint n => simp [imgEntryDropped] at hd
      | jfloat d => simp [imgEntryDropped] at hd
      | jlist ys => simp [imgEntryDropped] at hd
    | succ j =>
      have hj : j < rest.length := Nat.lt_of_succ_lt_succ hi
      have hmem := ih (k + 1) j hj (by simpa using hd)
      simp only [List.get_eq_getElem] at hmem
      have hidx : k + (j + 1) = (k + 1) + j := by omega
      rw [hidx]
      simp only [List.get] at hd ⊢
      -- the head entry only prepends (or not) to the issues of the tail
      cases e with
      | jstr s =>
        by_cases hv : isValidUrlVal (jstr s) <;>
          simp [imagesGo, hv, hmem]
      | jdict kvs =>
        by_cases hsrc : dictMem kvs "src"
        · by_cases hv : isValidUrlVal ((dictGet? kvs "src").getD jnull) <;>
            simp [imagesGo, hsrc, hv, hmem]
        · simp [imagesGo, hsrc, hmem]
      | jnull => simp [imagesGo, hmem]
      | jbool b => simp [imagesGo, hmem]
      | jint n => simp [imagesGo, hmem]
      | jfloat d => simp [imagesGo, hmem]
      | jlist ys => simp [imagesGo, hmem]

/-- Auxiliary: the videos loop reports every reportable dropped entry
(every dropped mapping or string) at its enumeration index. -/
theorem videosGo_reports (f m : String) :
    ∀ (xs : List JVal) (k i : Nat) (hi : i < xs.length),
      vidEntryDropped (xs.get ⟨i, hi⟩) = true →
      vidDropIssue (xs.get ⟨i, hi⟩) (k + i) f m ∈ (videosGo f m k xs).2 := by
  intro xs
  induction xs with
  | nil => intro k i hi; cases hi
  | cons e rest ih =>
    intro k i hi hd
    cases i with
    | zero =>
      simp only [List.get] at hd ⊢
      cases e with
      | jstr s =>
        simp only [vidEntryDropped, Bool.not_eq_true'] at hd
        simp [videosGo, hd, vidDropIssue, Nat.add_zero]
      | jdict kvs =>
        simp only [vidEntryDropped] at hd
        by_cases hsrc : dictMem kvs "src"
        · rw [if_pos hsrc] at hd
          simp only [Bool.not_eq_true'] at hd
          simp [videosGo, hsrc, hd, vidDropIssue, Nat.add_zero]
        · rw [if_neg (by simpa using hsrc)] at hd
          by_cases hvl : dictMem kvs "videoLocation"
          · rw [if_pos hvl] at hd
            simp only [Bool.not_eq_true'] at hd
            simp [videosGo, hsrc, hvl, hd, vidDropIssue, Nat.add_zero]
          · simp [videosGo, hsrc, hvl, vidDropIssue, Nat.add_zero]
      | jnull => simp [vidEntryDropped] at hd
      | jbool b => simp [vidEntryDropped] at hd
      | jint n => simp [vidEntryDropped] at hd
      | jfloat d => simp [vidEntryDropped] at hd
      | jlist ys => simp [vidEntryDropped] at hd
    | succ j =>
      have hj : j < rest.length := Nat.lt_of_succ_lt_succ hi
      have hmem := ih (k + 1) j hj (by simpa using hd)
      simp only [List.get_eq_getElem] at hmem
      have hidx : k + (j + 1) = (k + 1) + j := by omega
      rw [hidx]
      simp only [List.get] at hd ⊢
      cases e with
      | jstr s =>
        by_cases hv : isValidUrlVal (jstr s) <;>
          simp [videosGo, hv, hmem]
      | jdict kvs =>
        by_cases hsrc : dictMem kvs "src"
        · by_cases hv : isValidUrlVal ((dictGet? kvs "src").getD jnull) <;>
            simp [videosGo, hsrc, hv, hmem]
        · by_cases hvl : dictMem kvs "videoLocation"
          · by_cases hv :
                isValidUrlVal ((dictGet? kvs "videoLocation").getD jnull) <;>
              simp [videosGo, hsrc, hvl, hv, hmem]
          · simp [videosGo, hsrc, hvl, hmem]
      | jnull => simp [videosGo, hmem]
      | jbool b => simp [videosGo, hmem]
      | jint n => simp [videosGo, hmem]
      | jfloat d => simp [videosGo, hmem]
      | jlist ys => simp [videosGo, hmem]

/-- Auxiliary: the attachments loop reports every reportable dropped
entry at its enumeration index (for any counter value). -/
theorem attachmentsGo_reports (f m : String) :
    ∀ (xs : List JVal) (k c i : Nat) (hi : i < xs.length),
      attEntryDropped (xs.get ⟨i, hi⟩) = true →
      attDropIssue (xs.get ⟨i, hi⟩) (k + i) f m ∈
        (attachmentsGo f m k c xs).2 := by
  intro xs
  induction xs with
  | nil => intro k c i hi; cases hi
  | cons e rest ih =>
    intro k c i hi hd
    cases i with
    | zero =>
      simp only [List.get] at hd ⊢
      cases e with
      | jstr s =>
        simp only [attEntryDropped, Bool.not_eq_true'] at hd
        simp [attachmentsGo, hd, attDropIssue, Nat.add_zero]
      | jdict kvs =>
        simp only [attEntryDropped] at hd
        by_cases hal : dictMem kvs "attachmentLocation"
        · rw [if_pos hal] at hd
          simp only [Bool.not_eq_true'] at hd
          simp [attachmentsGo, hal, hd, attDropIssue, Nat.add_zero]
        · rw [if_neg (by simpa using hal)] at hd
          by_cases hsrc : dictMem kvs "src"
          · rw [if_pos hsrc] at hd
            simp only [Bool.not_eq_true'] at hd
            simp [attachmentsGo, hal, hsrc, hd, attDropIssue, Nat.add_zero]
          · simp [attachmentsGo, hal, hsrc, attDropIssue, Nat.add_zero]
      | jnull => simp [attEntryDropped] at hd
      | jbool b => simp [attEntryDropped] at hd
      | jint n => simp [attEntryDropped] at hd
      | jfloat d => simp [attEntryDropped] at hd
      | jlist ys => simp [attEntryDropped] at hd
    | succ j =>
      have hj : j < rest.length := Nat.lt_of_succ_lt_succ hi
      have hidx : k + (j + 1) = (k + 1) + j := by omega
      rw [hidx]
      simp only [List.get] at hd ⊢
      cases e with
      | jstr s =>
        by_cases hv : truthy (jstr s) && isValidUrlVal (jstr s)
        · have hmem := ih (k + 1) (c + 1) j hj (by simpa using hd)
          simp only [List.get_eq_getElem] at hmem
          simp [attachmentsGo, hv, hmem]
        · have hmem := ih (k + 1) c j hj (by simpa using hd)
          simp only [List.get_eq_getElem] at hmem
          simp only [attachmentsGo]
          rw [if_neg (by simpa using hv)]
          simp [hmem]
      | jdict kvs =>
        by_cases hal : dictMem kvs "attachmentLocation"
        · by_cases hv : truthy ((dictGet? kvs "attachmentLocation").getD jnull) &&
              isValidUrlVal ((dictGet? kvs "attachmentLocation").getD jnull)
          · have hmem := ih (k + 1) (c + 1) j hj (by simpa using hd)
            simp only [List.get_eq_getElem] at hmem
            simp [attachmentsGo, hal, hv, hmem]
          · have hmem := ih (k + 1) c j hj (by simpa using hd)
            simp only [List.get_eq_getElem] at hmem
            simp only [attachmentsGo, hal, if_true]
            rw [if_neg (by simpa using hv)]
            simp [hmem]
        · by_cases hsrc : dictMem kvs "src"
          · by_cases hv : truthy ((dictGet? kvs "src").getD jnull) &&
                isValidUrlVal ((dictGet? kvs "src").getD jnull)
            · have hmem := ih (k + 1) (c + 1) j hj (by simpa using hd)
              simp only [List.get_eq_getElem] at hmem
              simp [attachmentsGo, hal, hsrc, hv, hmem]
            · have hmem := ih (k + 1) c j hj (by simpa using hd)
              simp only [List.get_eq_getElem] at hmem
              have hvp : ¬(((dictGet? kvs "src").getD jnull).truthy = true ∧
                  isValidUrlVal ((dictGet? kvs "src").getD jnull) = true) :=
                fun hc => hv (by rw [Bool.and_eq_true]; exact hc)
              simp [attachmentsGo, hal, hsrc, hvp, hmem]
          · have hmem := ih (k + 1) c j hj (by simpa using hd)
            simp only [List.get_eq_getElem] at hmem
            simp [attachmentsGo, hal, hsrc, hmem]
      | jnull =>
        have hmem := ih (k + 1) c j hj (by simpa using hd)
        simp only [List.get_eq_getElem] at hmem
        simp [attachmentsGo, hmem]
      | jbool b =>
        have hmem := ih (k + 1) c j hj (by simpa using hd)
        simp only [List.get_eq_getElem] at hmem
        simp [attachmentsGo, hmem]
      | jint n =>
        have hmem := ih (k + 1) c j hj (by simpa using hd)
        simp only [List.get_eq_getElem] at hmem
        simp [attachmentsGo, hmem]
      | jfloat d =>
        have hmem := ih (k + 1) c j hj (by simpa using hd)
        simp only [List.get_eq_getElem] at hmem
        simp [attachmentsGo, hmem]
      | jlist ys =>
        have hmem := ih (k + 1) c j hj (by simpa using hd)
        simp only [List.get_eq_getElem] at hmem
        simp [attachmentsGo, hmem]

/-- C5 (amended): every dropped media entry that is a string, or (for
images) a `"src"`-bearing mapping, or (for videos and attachments) any
mapping, is reported with an issue naming its original index; other
shapes are dropped silently (see the counterexample). -/
theorem c5_media_amended :
    (∀ (f m : String) (xs : List JVal) (i : Nat) (hi : i < xs.length),
        imgEntryDropped (xs.get ⟨i, hi⟩) = true →
        imgDropIssue (xs.get ⟨i, hi⟩) i f m ∈ (imagesGo f m 0 xs).2) ∧
    (∀ (f m : String) (xs : List JVal) (i : Nat) (hi : i < xs.length),
        vidEntryDropped (xs.get ⟨i, hi⟩) = true →
        vidDropIssue (xs.get ⟨i, hi⟩) i f m ∈ (videosGo f m 0 xs).2) ∧
    (∀ (f m : String) (c : Nat) (xs : List JVal) (i : Nat)
        (hi : i < xs.length),
        attEntryDropped (xs.get ⟨i, hi⟩) = true →
        attDropIssue (xs.get ⟨i, hi⟩) i f m ∈
          (attachmentsGo f m 0 c xs).2) := by
  refine ⟨?_, ?_, ?_⟩
  · intro f m xs i hi hd
    simpa using imagesGo_reports f m xs 0 i hi hd
  · intro f m xs i hi hd
    simpa using videosGo_reports f m xs 0 i hi hd
  · intro f m c xs i hi hd
    simpa using attachmentsGo_reports f m xs 0 c i hi hd

/-- Witness for C5 (amended): an invalid string URL at index 0 is
reported for images and videos, and a mapping without a URL key is
reported for attachments. -/
theorem c5_media_amended_witness :
    ((0 < ([jstr "bad"] : List JVal).length ∧
        imgEntryDropped (([jstr "bad"] : List JVal).get ⟨0, by decide⟩) = true) ∧
      imgDropIssue (([jstr "bad"] : List JVal).get ⟨0, by decide⟩) 0 "f" "m" ∈
        (imagesGo "f" "m" 0 [jstr "bad"]).2) ∧
    (vidEntryDropped (([jstr "bad"] : List JVal).get ⟨0, by decide⟩) = true ∧
      vidDropIssue (([jstr "bad"] : List JVal).get ⟨0, by decide⟩) 0 "f" "m" ∈
        (videosGo "f" "m" 0 [jstr "bad"]).2) ∧
    (attEntryDropped
        (([jdict [("x", jint 1)]] : List JVal).get ⟨0, by decide⟩) = true ∧
      attDropIssue (([jdict [("x", jint 1)]] : List JVal).get ⟨0, by decide⟩)
          0 "f" "m" ∈
        (attachmentsGo "f" "m" 0 1 [jdict [("x", jint 1)]]).2) :=
  ⟨⟨⟨by decide, by decide⟩,
    c5_media_amended.1 "f" "m" [jstr "bad"] 0 (by decide) (by decide)⟩,
   ⟨by decide,
    c5_media_amended.2.1 "f" "m" [jstr "bad"] 0 (by decide) (by decide)⟩,
   ⟨by decide,
    c5_media_amended.2.2 "f" "m" 1 [jdict [("x", jint 1)]] 0 (by decide)
      (by decide)⟩⟩

/-- Auxiliary: when no attempt can produce a non-empty response of the
right length, the retry loop always returns the identity mapping. -/
theorem capitalizeGo_fail_identity
    (attempt : String → Option (List String)) (names : List String)
    (hfail : ∀ k r, attempt k = some r → r = [] ∨ r.length ≠ names.length) :
    ∀ (fuel : Nat) (tried : List String) (m : APIKeyManager)
      (log : List String),
      (capitalizeGo attempt names fuel tried m log).1 =
        buildMapping names names := by
  intro fuel
  induction fuel with
  | zero => intro tried m log; rfl
  | succ f ih =>
    intro tried m log
    unfold capitalizeGo
    by_cases ht : tried.contains m.getCurrentKey
    · simp only [ht, if_true]
      exact ih tried m.rotateOnFailure log
    · simp only [ht, Bool.false_eq_true, if_false]
      cases ha : attempt m.getCurrentKey with
      | none => exact ih _ _ _
      | some r =>
        rcases hfail _ _ ha with rfl | hlen
        · simp only [List.isEmpty_nil, Bool.not_true, Bool.false_and,
            Bool.false_eq_true, if_false]
          exact ih _ _ _
        · have : (!r.isEmpty && decide (r.length = names.length)) = false := by
            simp [hlen]
          simp only [this, Bool.false_eq_true, if_false]
          exact ih _ _ _

/-- Auxiliary: when every attempt raises and the credentials are
distinct, the loop attempts the credentials in rotation order from the
current index, once each. -/
theorem capitalizeGo_none_log
    (attempt : String → Option (List String)) (names : List String)
    (keys : List String) (hnone : ∀ k, attempt k = none)
    (hnd : keys.Nodup) :
    ∀ (fuel i : Nat) (tried : List String) (m : APIKeyManager)
      (log : List String),
      m.apiKeys = keys → m.currentIndex = i → i + fuel = keys.length →
      (∀ x ∈ keys.drop i, x ∉ tried) →
      (capitalizeGo attempt names fuel tried m log).2.2 =
        log ++ keys.drop i := by
  intro fuel
  induction fuel with
  | zero =>
    intro i tried m log hk hi hlen htried
    have : keys.drop i = [] := by
      apply List.drop_eq_nil_of_le
      omega
    simp [capitalizeGo, this]
  | succ f ih =>
    intro i tried m log hk hi hlen htried
    have hilt : i < keys.length := by omega
    have hkey : m.getCurrentKey = keys.get ⟨i, hilt⟩ := by
      simp [APIKeyManager.getCurrentKey, hk, hi,
        List.getD_eq_getElem?_getD, List.getElem?_eq_getElem hilt]
    have hdropi : keys.drop i = keys.get ⟨i, hilt⟩ :: keys.drop (i + 1) := by
      exact List.drop_eq_getElem_cons hilt
    have hmemdrop : keys.get ⟨i, hilt⟩ ∈ keys.drop i := by
      rw [hdropi]; exact List.mem_cons_self _ _
    have hnotTried : keys.get ⟨i, hilt⟩ ∉ tried := htried _ hmemdrop
    have hcont : tried.contains m.getCurrentKey = false := by
      rw [hkey]
      cases hcc : tried.contains (keys.get ⟨i, hilt⟩)
      · rfl
      · exact absurd (List.mem_of_elem_eq_true hcc) hnotTried
    unfold capitalizeGo
    simp only [hcont, Bool.false_eq_true, if_false, hnone]
    cases f with
    | zero =>
      have hdrop1 : keys.drop (i + 1) = [] := by
        apply List.drop_eq_nil_of_le
        omega
      simp [capitalizeGo, hdropi, hdrop1, hkey]
    | succ f' =>
      have hrot : m.rotateOnFailure.currentIndex = i + 1 := by
        simp [APIKeyManager.rotateOnFailure, APIKeyManager.rotate, hk, hi]
        exact Nat.mod_eq_of_lt (by omega)
      have hnodupDrop : (keys.drop i).Nodup :=
        hnd.sublist (List.drop_sublist i keys)
      have hheadNotTail : keys.get ⟨i, hilt⟩ ∉ keys.drop (i + 1) := by
        rw [hdropi] at hnodupDrop
        exact (List.nodup_cons.mp hnodupDrop).1
      have ihres := ih (i + 1) (m.getCurrentKey :: tried) m.rotateOnFailure
        (log ++ [m.getCurrentKey])
        (by simp [APIKeyManager.rotateOnFailure, APIKeyManager.rotate, hk])
        hrot (by omega) ?_
      · rw [ihres, hdropi, hkey]
        simp
      · intro x hx
        simp only [List.mem_cons, not_or]
        constructor
        · rw [hkey]
          intro hxx
          rw [hxx] at hx
          exact hheadNotTail hx
        · apply htried
          rw [hdropi]
          exact List.mem_cons_of_mem _ hx

/-- C1 (amended): when the name service never returns a length-matching
non-empty response, `capitalize_model_names_batch` returns the identity
mapping; and when it raises on every attempt (with distinct
credentials and a non-empty chunk), every credential in the pool is
attempted exactly once — the attempt log is exactly the key list.  When
instead a mismatched-length response comes back without an exception,
the loop does not rotate, so later retries are consumed skipping the
already-tried credential and some credentials are never attempted (see
the counterexample). -/
theorem c1_gemini_amended (attempt : String → Option (List String))
    (names keys : List String) (q : Nat)
    (hfail : ∀ k r, attempt k = some r → r = [] ∨ r.length ≠ names.length) :
    (capitalizeModelNamesBatch attempt names ⟨keys, q, 0, 0, 0⟩).1 =
      buildMapping names names ∧
    ((∀ k, attempt k = none) → keys.Nodup → names ≠ [] →
      (capitalizeModelNamesBatch attempt names ⟨keys, q, 0, 0, 0⟩).2.2 =
        keys) := by
  constructor
  · unfold capitalizeModelNamesBatch
    by_cases hn : names.isEmpty
    · have : names = [] := by
        cases names
        · rfl
        · simp at hn
      simp [hn, this, buildMapping]
    · simp only [hn, Bool.false_eq_true, if_false]
      exact capitalizeGo_fail_identity attempt names hfail _ _ _ _
  · intro hnone hnd hne
    unfold capitalizeModelNamesBatch
    have hn : names.isEmpty = false := by
      cases names
      · exact absurd rfl hne
      · rfl
    simp only [hn, Bool.false_eq_true, if_false]
    have := capitalizeGo_none_log attempt names keys hnone hnd
      keys.length 0 [] ⟨keys, q, 0, 0, 0⟩ [] rfl rfl (by omega)
      (by intro x _ hx; cases hx)
    simpa using this

/-- Witness for C1 (amended): two distinct credentials, a service that
always raises, a one-name chunk. -/
theorem c1_gemini_amended_witness :
    (capitalizeModelNamesBatch (fun _ => none) ["x"]
        ⟨["a", "b"], 15, 0, 0, 0⟩).1 = buildMapping ["x"] ["x"] ∧
    (capitalizeModelNamesBatch (fun _ => none) ["x"]
        ⟨["a", "b"], 15, 0, 0, 0⟩).2.2 = ["a", "b"] := by
  have h := c1_gemini_amended (fun _ => none) ["x"] ["a", "b"] 15
    (fun k r hr => by cases hr)
  exact ⟨h.1, h.2 (fun _ => rfl) (by decide) (by decide)⟩

theorem splitSp_ne_nil : ∀ l : List Char, splitSp l ≠ [] := by
  intro l
  induction l with
  | nil => simp [splitSp]
  | cons c t ih =>
    by_cases hc : c = ' '
    · simp [splitSp, hc]
    · simp only [splitSp, hc, Bool.false_eq_true, if_false]
      cases h : splitSp t <;> simp

theorem mem_splitSp_no_space :
    ∀ (l : List Char) (w : List Char), w ∈ splitSp l → ' ' ∉ w := by
  intro l
  induction l with
  | nil =>
    intro w hw
    simp [splitSp] at hw
    simp [hw]
  | cons c t ih =>
    intro w hw
    by_cases hc : c = ' '
    · simp only [splitSp, hc, if_true, List.mem_cons] at hw
      rcases hw with rfl | hw
      · simp
      · exact ih w hw
    · simp only [splitSp, hc, Bool.false_eq_true, if_false] at hw
      cases h : splitSp t with
      | nil => exact absurd h (splitSp_ne_nil t)
      | cons h0 r =>
        rw [h] at hw
        rcases List.mem_cons.mp hw with rfl | hw2
        · intro hsp
          rcases List.mem_cons.mp hsp with hce | hmem
          · exact hc hce.symm
          · exact ih h0 (h ▸ List.mem_cons_self h0 r) hmem
        · exact ih w (h ▸ List.mem_cons_of_mem h0 hw2)

theorem splitSp_no_space_id :
    ∀ w : List Char, ' ' ∉ w → splitSp w = [w] := by
  intro w
  induction w with
  | nil => intro _; rfl
  | cons c t ih =>
    intro h
    have hc : ¬ c = ' ' := fun hce => h (hce ▸ List.mem_cons_self c t)
    have ht := ih (fun hm => h (List.mem_cons_of_mem c hm))
    simp only [splitSp, hc, Bool.false_eq_true, if_false, ht]

theorem splitSp_append_space :
    ∀ (w t : List Char), ' ' ∉ w →
      splitSp (w ++ ' ' :: t) = w :: splitSp t := by
  intro w
  induction w with
  | nil => intro t _; simp [splitSp]
  | cons c w' ih =>
    intro t h
    have hc : ¬ c = ' ' := fun hce => h (hce ▸ List.mem_cons_self c w')
    have hw' := ih t (fun hm => h (List.mem_cons_of_mem c hm))
    have hw2 : splitSp (w'.append (' ' :: t)) = w' :: splitSp t := hw'
    simp only [List.cons_append, splitSp, hc, Bool.false_eq_true, if_false,
      hw', hw2]

theorem splitSp_joinSp :
    ∀ ws : List (List Char), ws ≠ [] → (∀ w ∈ ws, ' ' ∉ w) →
      splitSp (joinSp ws) = ws := by
  intro ws
  induction ws with
  | nil => intro h; exact absurd rfl h
  | cons w rest ih =>
    intro _ hno
    cases rest with
    | nil =>
      simp only [joinSp]
      exact splitSp_no_space_id w (hno w (List.mem_cons_self w []))
    | cons w1 rest1 =>
      have hjoin : joinSp (w :: w1 :: rest1) = w ++ ' ' :: joinSp (w1 :: rest1) := rfl
      rw [hjoin, splitSp_append_space w _ (hno w (List.mem_cons_self _ _))]
      rw [ih (by simp) (fun x hx => hno x (List.mem_cons_of_mem w hx))]

theorem isLower_toNat {c : Char} (h : c.isLower = true) :
    97 ≤ c.toNat ∧ c.toNat ≤ 122 := by
  simp only [Char.isLower, Bool.and_eq_true, decide_eq_true_eq] at h
  exact ⟨UInt32.le_def.mp h.1, UInt32.le_def.mp h.2⟩

theorem isLower_of_toNat {c : Char} (h1 : 97 ≤ c.toNat) (h2 : c.toNat ≤ 122) :
    c.isLower = true := by
  simp only [Char.isLower, Bool.and_eq_true, decide_eq_true_eq]
  exact ⟨UInt32.le_def.mpr h1, UInt32.le_def.mpr h2⟩

theorem toNat_ofNat_valid {m : Nat} (h : m < 55296) :
    (Char.ofNat m).toNat = m := by
  rw [Char.ofNat, dif_pos (Or.inl h)]
  rfl

theorem toUpper_toNat {c : Char} (h : c.isLower = true) :
    (Char.toUpper c).toNat = c.toNat - 32 := by
  obtain ⟨h1, h2⟩ := isLower_toNat h
  rw [Char.toUpper, if_pos ⟨h1, h2⟩]
  exact toNat_ofNat_valid (by omega)

theorem toUpper_eq_of_not_lower {c : Char} (h : c.isLower = false) :
    Char.toUpper c = c := by
  rw [Char.toUpper, if_neg]
  intro hc
  rw [isLower_of_toNat hc.1 hc.2] at h
  cases h

theorem isLower_toUpper (c : Char) : (Char.toUpper c).isLower = false := by
  cases h : c.isLower
  · rw [toUpper_eq_of_not_lower h]; exact h
  · obtain ⟨h1, h2⟩ := isLower_toNat h
    have ht := toUpper_toNat h
    cases hl : (Char.toUpper c).isLower
    · rfl
    · obtain ⟨g1, _⟩ := isLower_toNat hl
      omega

theorem isPySpace_of_ge {c : Char} (h : 33 ≤ c.toNat) :
    isPySpace c = false := by
  have hs : ∀ d : Char, c = d → c.toNat = d.toNat := fun d hd => by rw [hd]
  simp only [Char.toNat] at h
  simp only [isPySpace, Bool.or_eq_false_iff, decide_eq_false_iff_not]
  refine ⟨⟨⟨⟨⟨?_, ?_⟩, ?_⟩, ?_⟩, ?_⟩, ?_⟩ <;>
    · intro he
      have := hs _ he
      simp only [Char.toNat] at this
      simp [UInt32.size] at this
      omega

theorem isPySpace_toUpper {c : Char} (h : isPySpace c = false) :
    isPySpace (Char.toUpper c) = false := by
  cases hl : c.isLower
  · rw [toUpper_eq_of_not_lower hl]; exact h
  · obtain ⟨h1, _⟩ := isLower_toNat hl
    have ht := toUpper_toNat hl
    exact isPySpace_of_ge (by omega)

theorem space_isPySpace : isPySpace ' ' = true := rfl

theorem ne_space_of_not_pyspace {c : Char} (h : isPySpace c = false) :
    c ≠ ' ' := by
  intro he
  rw [he] at h
  cases h

theorem capWord_idem (w : List Char) : capWord (capWord w) = capWord w := by
  cases w with
  | nil => rfl
  | cons c r =>
    by_cases hl : c.isLower
    · simp only [capWord, hl, if_true, isLower_toUpper, Bool.false_eq_true,
        if_false]
    · simp only [capWord, hl, Bool.false_eq_true, if_false]

theorem capWord_no_space {w : List Char} (h : ' ' ∉ w) : ' ' ∉ capWord w := by
  cases w with
  | nil => simp [capWord]
  | cons c r =>
    have hcr : c ≠ ' ' := fun hce => h (hce ▸ List.mem_cons_self c r)
    have hr : ' ' ∉ r := fun hm => h (List.mem_cons_of_mem c hm)
    by_cases hl : c.isLower
    · simp only [capWord, hl, if_true]
      intro hm
      rcases List.mem_cons.mp hm with he | hm2
      · have : isPySpace (Char.toUpper c) = false :=
          isPySpace_toUpper (by
            cases hps : isPySpace c
            · rfl
            · -- c is whitespace and lowercase: impossible (whitespace < 33 < 97)
              obtain ⟨h1, _⟩ := isLower_toNat hl
              have := isPySpace_of_ge (c := c) (by omega)
              rw [this] at hps
              cases hps)
        exact ne_space_of_not_pyspace this he.symm
      · exact hr hm2
    · simp only [capWord, hl, Bool.false_eq_true, if_false]
      intro hm
      rcases List.mem_cons.mp hm with he | hm2
      · exact hcr he.symm
      · exact hr hm2

theorem head_dropWhile_false (p : Char → Bool) :
    ∀ (l : List Char) (c : Char), (l.dropWhile p).head? = some c →
      p c = false := by
  intro l
  induction l with
  | nil => intro c h; simp [List.dropWhile] at h
  | cons x t ih =>
    intro c h
    by_cases hp : p x
    · rw [List.dropWhile_cons_of_pos hp] at h
      exact ih c h
    · rw [List.dropWhile_cons_of_neg hp] at h
      simp only [List.head?_cons, Option.some.injEq] at h
      rw [← h]
      cases hpx : p x
      · rfl
      · exact absurd hpx hp

theorem getLast_dropWhile_ne_nil (p : Char → Bool) :
    ∀ (l : List Char), l.dropWhile p ≠ [] →
      (l.dropWhile p).getLast? = l.getLast? := by
  intro l
  induction l with
  | nil => intro h; simp [List.dropWhile] at h
  | cons x t ih =>
    intro h
    by_cases hp : p x
    · rw [List.dropWhile_cons_of_pos hp] at h ⊢
      have ht : t ≠ [] := by
        intro he
        rw [he] at h
        simp [List.dropWhile] at h
      rw [ih h]
      cases t with
      | nil => exact absurd rfl ht
      | cons y t2 => rw [List.getLast?_cons_cons]
    · rw [List.dropWhile_cons_of_neg hp]


theorem pyStrip_head (l : List Char) (h : pyStrip l ≠ []) :
    ∃ c, (pyStrip l).head? = some c ∧ isPySpace c = false := by
  unfold pyStrip at h ⊢
  set a := l.dropWhile isPySpace with ha
  set b := a.reverse.dropWhile isPySpace with hb
  have hbne : b ≠ [] := by
    intro he
    rw [he] at h
    exact h rfl
  have hane : a ≠ [] := by
    intro he
    rw [he] at hb
    simp [List.dropWhile] at hb
    exact hbne hb
  cases hha : a.head? with
  | none => rw [List.head?_eq_none_iff] at hha; exact absurd hha hane
  | some c =>
    refine ⟨c, ?_, head_dropWhile_false isPySpace l c (ha ▸ hha)⟩
    rw [List.head?_reverse]
    rw [hb, getLast_dropWhile_ne_nil isPySpace a.reverse (hb ▸ hbne)]
    rw [List.getLast?_reverse]
    exact hha

theorem pyStrip_getLast (l : List Char) (h : pyStrip l ≠ []) :
    ∃ c, (pyStrip l).getLast? = some c ∧ isPySpace c = false := by
  unfold pyStrip at h ⊢
  set a := l.dropWhile isPySpace with ha
  set b := a.reverse.dropWhile isPySpace with hb
  have hbne : b ≠ [] := by
    intro he
    rw [he] at h
    exact h rfl
  cases hhb : b.head? with
  | none => rw [List.head?_eq_none_iff] at hhb; exact absurd hhb hbne
  | some c =>
    refine ⟨c, ?_, head_dropWhile_false isPySpace a.reverse c (hb ▸ hhb)⟩
    rw [List.getLast?_reverse]
    exact hhb

theorem pyStrip_eq_self (l : List Char)
    (hh : ∀ c, l.head? = some c → isPySpace c = false)
    (hl : ∀ c, l.getLast? = some c → isPySpace c = false) :
    pyStrip l = l := by
  cases l with
  | nil => rfl
  | cons x t =>
    have hpx : isPySpace x = false := hh x rfl
    unfold pyStrip
    rw [List.dropWhile_cons_of_neg (by simp [hpx])]
    cases hrev : (x :: t).reverse with
    | nil => simp at hrev
    | cons y rest =>
      have hy : (x :: t).getLast? = some y := by
        rw [← List.head?_reverse, hrev]
        rfl
      have hpy := hl y hy
      rw [List.dropWhile_cons_of_neg (by simp [hpy]), ← hrev,
        List.reverse_reverse]

theorem joinSp_head (w : List Char) (rest : List (List Char)) (hw : w ≠ []) :
    (joinSp (w :: rest)).head? = w.head? := by
  cases rest with
  | nil => rfl
  | cons w1 r =>
    cases w with
    | nil => exact absurd rfl hw
    | cons c w2 => rfl

theorem joinSp_getLast :
    ∀ (ws : List (List Char)) (w : List Char) (c : Char),
      ws.getLast? = some w → w.getLast? = some c →
      (joinSp ws).getLast? = some c := by
  intro ws
  induction ws with
  | nil => intro w c h; simp at h
  | cons w0 rest ih =>
    intro w c h1 h2
    cases rest with
    | nil =>
      simp only [List.getLast?_cons, List.getLast?_nil, Option.getD_none] at h1
      cases h1
      exact h2
    | cons w1 r =>
      rw [List.getLast?_cons_cons] at h1
      have hinner := ih w c h1 h2
      have hjoin : joinSp (w0 :: w1 :: r) = w0 ++ ' ' :: joinSp (w1 :: r) := rfl
      rw [hjoin, List.getLast?_append]
      rw [List.getLast?_cons, hinner]
      rfl

theorem splitSp_head_cons (c : Char) (t : List Char) (hc : c ≠ ' ') :
    ∃ h r, splitSp t = h :: r ∧ splitSp (c :: t) = (c :: h) :: r := by
  cases hs : splitSp t with
  | nil => exact absurd hs (splitSp_ne_nil t)
  | cons h r =>
    refine ⟨h, r, rfl, ?_⟩
    simp only [splitSp, hc, Bool.false_eq_true, if_false, hs]

theorem splitSp_getLast :
    ∀ (l : List Char) (c : Char), l.getLast? = some c → c ≠ ' ' →
      ∃ w, (splitSp l).getLast? = some w ∧ w.getLast? = some c := by
  intro l
  induction l with
  | nil => intro c h; simp at h
  | cons x t ih =>
    intro c h hc
    cases t with
    | nil =>
      simp only [List.getLast?_cons, List.getLast?_nil, Option.getD_none] at h
      cases h
      have hx : x ≠ ' ' := hc
      refine ⟨[x], ?_, rfl⟩
      simp only [splitSp, hx, Bool.false_eq_true, if_false]
      rfl
    | cons y t2 =>
      rw [List.getLast?_cons_cons] at h
      obtain ⟨w, hw1, hw2⟩ := ih c h hc
      by_cases hx : x = ' '
      · rw [show splitSp (x :: y :: t2) = [] :: splitSp (y :: t2) from by
          simp [splitSp, hx]]
        refine ⟨w, ?_, hw2⟩
        rw [List.getLast?_cons, hw1]
        rfl
      · obtain ⟨h0, r, hsp1, hsp2⟩ := splitSp_head_cons x (y :: t2) hx
        rw [hsp2]
        rw [hsp1] at hw1
        cases r with
        | nil =>
          simp only [List.getLast?_cons, List.getLast?_nil,
            Option.getD_none] at hw1
          cases hw1
          have hwne : w ≠ [] := by
            intro he
            rw [he] at hw2
            simp at hw2
          refine ⟨x :: w, rfl, ?_⟩
          cases w with
          | nil => exact absurd rfl hwne
          | cons w0 w1 => rw [List.getLast?_cons_cons]; exact hw2
        | cons r0 r1 =>
          rw [List.getLast?_cons_cons] at hw1 ⊢
          exact ⟨w, hw1, hw2⟩

theorem capWord_getLast {w : List Char} {c : Char}
    (h : w.getLast? = some c) (hs : isPySpace c = false) :
    ∃ c2, (capWord w).getLast? = some c2 ∧ isPySpace c2 = false ∧
      capWord w ≠ [] := by
  cases w with
  | nil => simp at h
  | cons x r =>
    cases r with
    | nil =>
      simp only [List.getLast?_cons, List.getLast?_nil, Option.getD_none] at h
      cases h
      by_cases hlx : Char.isLower c
      · exact ⟨Char.toUpper c, by simp [capWord, hlx], isPySpace_toUpper hs,
          by simp [capWord, hlx]⟩
      · exact ⟨c, by simp [capWord, hlx], hs, by simp [capWord, hlx]⟩
    | cons r0 r1 =>
      rw [List.getLast?_cons_cons] at h
      by_cases hlx : Char.isLower x
      · refine ⟨c, ?_, hs, by simp [capWord, hlx]⟩
        simp only [capWord, hlx, if_true]
        rw [List.getLast?_cons_cons]
        exact h
      · refine ⟨c, ?_, hs, by simp [capWord, hlx]⟩
        simp only [capWord, hlx, Bool.false_eq_true, if_false]
        rw [List.getLast?_cons_cons]
        exact h

theorem getLast?_map_capWord :
    ∀ ws : List (List Char), (ws.map capWord).getLast? =
      ws.getLast?.map capWord := by
  intro ws
  induction ws with
  | nil => rfl
  | cons w rest ih =>
    cases rest with
    | nil => rfl
    | cons w1 r =>
      simp only [List.map_cons, List.getLast?_cons_cons] at ih ⊢
      exact ih

theorem capitalizeWordsL_idem (l : List Char) :
    capitalizeWordsL (capitalizeWordsL l) = capitalizeWordsL l := by
  by_cases hl : l = []
  · rw [hl]
    rfl
  have hcl : capitalizeWordsL l =
      joinSp ((splitSp (pyStrip l)).map capWord) := by
    rw [capitalizeWordsL, if_neg hl]
  rw [hcl]
  set u := pyStrip l with hu
  set ws := splitSp u with hws
  set ws2 := ws.map capWord with hws2
  set out := joinSp ws2 with hout
  by_cases ho : out = []
  · rw [ho]
    rfl
  have hwsne : ws ≠ [] := hws ▸ splitSp_ne_nil u
  have hws2ne : ws2 ≠ [] := by
    rw [hws2]
    intro he
    exact hwsne (List.map_eq_nil_iff.mp he)
  have hnospace : ∀ w ∈ ws2, ' ' ∉ w := by
    intro w hw
    rcases List.mem_map.mp (hws2 ▸ hw) with ⟨w0, hw0, rfl⟩
    exact capWord_no_space (mem_splitSp_no_space u w0 (hws ▸ hw0))
  have hune : u ≠ [] := by
    intro he
    apply ho
    rw [hout, hws2, hws, he]
    rfl
  -- head of `out` is not whitespace
  obtain ⟨c0, hc0, hc0s⟩ := pyStrip_head l (hu ▸ hune)
  have huhead : u.head? = some c0 := hu ▸ hc0
  obtain ⟨c0', t0, hu0⟩ := List.exists_cons_of_ne_nil hune
  have hc0e : c0' = c0 := by
    rw [hu0] at huhead
    simpa using huhead
  subst hc0e
  obtain ⟨h0, r0, hsp1, hsp2⟩ :=
    splitSp_head_cons c0' t0 (ne_space_of_not_pyspace (by exact hc0s))
  have hwseq : ws = (c0' :: h0) :: r0 := by rw [hws, hu0, hsp2]
  have hheadout : ∃ ch, out.head? = some ch ∧ isPySpace ch = false := by
    refine ⟨if c0'.isLower then c0'.toUpper else c0', ?_, ?_⟩
    · rw [hout, hws2, hwseq]
      simp only [List.map_cons]
      rw [joinSp_head _ _ (by by_cases hlc : c0'.isLower <;> simp [capWord, hlc])]
      by_cases hlc : c0'.isLower <;> simp [capWord, hlc]
    · by_cases hlc : c0'.isLower <;> simp [hlc, isPySpace_toUpper hc0s, hc0s]
  -- last of `out` is not whitespace
  obtain ⟨cl, hcl2, hcls⟩ := pyStrip_getLast l (hu ▸ hune)
  have hulast : u.getLast? = some cl := hu ▸ hcl2
  obtain ⟨wlast, hwl1, hwl2⟩ :=
    splitSp_getLast u cl hulast (ne_space_of_not_pyspace hcls)
  obtain ⟨cl', hcl2', hcls', hcwne⟩ := capWord_getLast hwl2 hcls
  have hlastout : out.getLast? = some cl' := by
    apply joinSp_getLast ws2 (capWord wlast) cl' _ hcl2'
    rw [hws2, getLast?_map_capWord, hws, hwl1]
    rfl
  -- (i) stripping `out` is the identity
  have hstrip : pyStrip out = out := by
    apply pyStrip_eq_self
    · intro c hc
      obtain ⟨ch, hch, hchs⟩ := hheadout
      rw [hch] at hc
      cases hc
      exact hchs
    · intro c hc
      rw [hlastout] at hc
      cases hc
      exact hcls'
  -- (ii) re-splitting `out` recovers the words
  have hsplit : splitSp out = ws2 := by
    rw [hout]
    exact splitSp_joinSp ws2 hws2ne hnospace
  -- (iii) re-capitalizing changes nothing
  have hmap : ws2.map capWord = ws2 := by
    rw [hws2, List.map_map]
    apply List.map_congr_left
    intro w _
    exact capWord_idem w
  rw [capitalizeWordsL, if_neg ho, hstrip, hsplit, hmap]

/-- C3 (amended): the per-record pipeline is not idempotent (see the
counterexample: spec-key camel-casing changes `maxLoad` to `maxload` on
the second pass), but the word-capitalization stage is idempotent —
`capitalize_words (capitalize_words s) = capitalize_words s` for every
string — and the pipeline does fix records whose spec keys are already
fully lowercased, such as the two-pass output `exC3out2`. -/
theorem c3_pipeline_amended :
    (∀ s : String, capitalizeWords (capitalizeWords s) = capitalizeWords s) ∧
      pipelineOut [] "f" exC3out2 = exC3out2 := by
  refine ⟨?_, by rfl⟩
  intro s
  by_cases h : s = ""
  · rw [h]
    rfl
  · have hinner : capitalizeWords s = String.mk (capitalizeWordsL s.data) := by
      rw [capitalizeWords, if_neg h]
    rw [hinner]
    by_cases h2 : String.mk (capitalizeWordsL s.data) = ""
    · rw [capitalizeWords, if_pos h2]
    · rw [capitalizeWords, if_neg h2]
      have hdata : (String.mk (capitalizeWordsL s.data)).data =
          capitalizeWordsL s.data := rfl
      rw [hdata, capitalizeWordsL_idem]

/-- C3, counterexample.  Applying `_format_single_model` twice to a
record whose spec section `other` holds the key `Max Load` is not the same
as applying it once: the first pass camel-cases the key to `maxLoad`,
the second lowercases it to `maxload` (Python `str.title()` lowercases
interior capitals). -/
theorem c3_pipeline_counterexample :
    pipelineOut [] "f" (pipelineOut [] "f" exC3) ≠ pipelineOut [] "f" exC3 := by
  have h1 : pipelineOut [] "f" exC3 = exC3out1 := by rfl
  have h2 : pipelineOut [] "f" exC3out1 = exC3out2 := by rfl
  rw [h1, h2]
  intro h
  have hobs := congrArg (fun v => hasSpecKey v "other" "maxLoad") h
  exact absurd hobs (by decide)


end QATools
